import Mathlib

/-!
# Element Snatch CSS — Selector Synthesis & Nested-Tree Serialization Engine

A shallow embedding of the algorithmic core of `src/main.js` (the first,
current variant of the file):

* `_cssEscape`            → `cssEscape` / `cssEscapeFallback`
* `_selectorFor`          → `selectorFor`
* `_buildPathsBetween`    → `buildPathsBetween` (the second, effective
                            definition at lines 345–372; JavaScript class
                            bodies let the later method shadow the earlier
                            one at lines 99–129)
* `_css` (lines 499–684)  → `cssMain` with `renderCanonical` / `renderFinal`

DOM trees are modelled by `DNode`; machine state that the source keeps in
the closure variables `nodeCount` / `truncated` is threaded explicitly as
`RState`.  The mutual recursion of the final render (through sibling
grouping) is expressed with an explicit fuel argument that strictly
decreases on every recursive call; the source recursion always descends to
a strict child, so its depth is bounded by the tree size, and the entry
point supplies `sizeD root` fuel, which can never be exhausted.
-/

/-- A character the fallback escaper leaves untouched: the JavaScript
character class `[a-zA-Z0-9_-]` of `_cssEscape` (src/main.js:464). -/
def isCssSafe (c : Char) : Bool :=
  (('a' ≤ c && c ≤ 'z') || ('A' ≤ c && c ≤ 'Z') || ('0' ≤ c && c ≤ '9')
    || c = '_' || c = '-')

/-- One replacement step of the fallback escaper:
`"\\" + c.charCodeAt(0).toString(16) + " "` for an unsafe character,
the character itself otherwise (src/main.js:464–466). -/
def escapeChar (c : Char) : String :=
  if isCssSafe c then String.singleton c
  else "\\" ++ String.mk (Nat.toDigits 16 c.toNat) ++ " "

/-- The fallback branch of `_cssEscape` (src/main.js:464–466): a global
regex replace, i.e. the concatenation of the per-character images. -/
def cssEscapeFallback (s : String) : String :=
  String.join (s.data.map escapeChar)

/-- `_cssEscape` (src/main.js:462–467): prefer the native `CSS.escape`
when the platform provides one, otherwise use the fallback. -/
def cssEscape (native : Option (String → String)) (s : String) : String :=
  match native with
  | some f => f s
  | none => cssEscapeFallback s

/-- Snapshot of one DOM element as consumed by `_selectorFor` and the path
walk: tag name (as `tagName`, uppercase in HTML documents), `id` attribute
(`""` when absent), class list, whether `parentElement` is non-null, and
the number of preceding element siblings (what the
`previousElementSibling` loop of src/main.js:483–484 counts). -/
structure Elem where
  tag : String
  idAttr : String
  classes : List String
  hasParent : Bool
  prevElemSiblings : Nat
deriving DecidableEq, Repr, Inhabited

/-- The option fields `_selectorFor` reads (src/main.js:470–489). -/
structure SelOpts where
  useIds : Bool
  useClasses : Bool
  includeTagIfNoClasses : Bool
  includeNthChild : Bool
deriving DecidableEq, Repr, Inhabited

/-- JavaScript `tagName.toLowerCase()` (per character; tag names are
ASCII), written over the character list so that it reduces in the
kernel. -/
def strToLower (s : String) : String :=
  String.mk (s.data.map Char.toLower)

/-- `_selectorFor(node, opts)` (src/main.js:470–489).  The id branch and
the class branch `return` early; only the tag/wildcard branch ever reaches
the `includeNthChild` qualifier. -/
def selectorFor (esc : String → String) (opts : SelOpts) (node : Elem) : String :=
  if opts.useIds && node.idAttr != "" then
    "#" ++ esc node.idAttr
  else
    let classes :=
      if opts.useClasses && !node.classes.isEmpty then
        (node.classes.filter (fun c => c != "")).map esc
      else []
    if !classes.isEmpty then
      "." ++ String.intercalate "." classes
    else
      let sel := if opts.includeTagIfNoClasses then strToLower node.tag else "*"
      if opts.includeNthChild && node.hasParent then
        sel ++ ":nth-child(" ++ toString (node.prevElemSiblings + 1) ++ ")"
      else
        sel

/-- The record returned by `_buildPathsBetween` (src/main.js:368–371). -/
structure PathPair where
  descendant : String
  child : String
deriving DecidableEq, Repr, Inhabited

/-- The upward walk of `_buildPathsBetween` (src/main.js:350–356): push the
current element, stop at `ancestor`, otherwise follow `parentElement`
(modelled by the explicit parent chain `parents`, nearest parent first; the
chain ends where the parent is absent or not an element), with the source's
iteration guard as fuel. -/
def collectChain (ancestor : Elem) : Elem → List Elem → Nat → List Elem
  | _, _, 0 => []
  | cur, parents, fuel + 1 =>
    cur :: (if cur = ancestor then []
      else
        match parents with
        | [] => []
        | p :: ps => collectChain ancestor p ps fuel)

/-- The selector options the effective `_buildPathsBetween` passes to
`_selectorFor` (src/main.js:362–367): everything fixed except
`includeNthChild`. -/
def pathSelOpts (nth : Bool) : SelOpts :=
  { useIds := true, useClasses := true, includeTagIfNoClasses := true,
    includeNthChild := nth }

/-- The element chain used by the effective `_buildPathsBetween`
(src/main.js:349–361): walk up from `target`; if the last collected node is
not `ancestor` (the defensive case), push `ancestor`; then reverse to
ancestor-first order. -/
def chainBetween (ancestor target : Elem) (parents : List Elem) : List Elem :=
  let chain := collectChain ancestor target parents 5000
  let chain := if chain.getLast? = some ancestor then chain else chain ++ [ancestor]
  chain.reverse

/-- The per-node selector tokens of the path (src/main.js:362–367). -/
def pathSels (esc : String → String) (nth : Bool)
    (ancestor target : Elem) (parents : List Elem) : List String :=
  (chainBetween ancestor target parents).map (selectorFor esc (pathSelOpts nth))

/-- The effective `_buildPathsBetween(ancestorEl, targetEl, options)`
(src/main.js:345–372) on two non-null elements: join the selector tokens
with `" "` and with `" > "`. -/
def buildPathsBetween (esc : String → String) (nth : Bool)
    (ancestor target : Elem) (parents : List Elem) : PathPair :=
  { descendant := String.intercalate " " (pathSels esc nth ancestor target parents)
    child := String.intercalate " > " (pathSels esc nth ancestor target parents) }

/-- `_buildPathsBetween` including its null guard (src/main.js:347):
`!ancestorEl || !targetEl` yields two empty strings. -/
def buildPathsBetweenOpt (esc : String → String) (nth : Bool) :
    Option Elem → Option Elem → List Elem → PathPair
  | none, _, _ => { descendant := "", child := "" }
  | some _, none, _ => { descendant := "", child := "" }
  | some a, some t, parents => buildPathsBetween esc nth a t parents

/-- JavaScript `String.prototype.split` with a non-empty string separator,
on character lists: leftmost-first occurrences of the separator cut the
string.  The recursion consumes at least one character per step; the `fuel`
argument makes it structural, and every use supplies the input's length,
which is always sufficient (`jsSplitCharsF_fuel`). -/
def jsSplitCharsF (sep : List Char) : Nat → List Char → List (List Char)
  | _, [] => [[]]
  | 0, l => [l]
  | fuel + 1, c :: rest =>
    if sep.isPrefixOf (c :: rest) then
      [] :: jsSplitCharsF sep fuel ((c :: rest).drop sep.length)
    else
      match jsSplitCharsF sep fuel rest with
      | [] => [[c]]
      | t :: ts => (c :: t) :: ts

/-- JavaScript `s.split(sep)` for a non-empty separator; an empty separator
is never used by the specification's properties. -/
def jsSplit (sep s : String) : List String :=
  (jsSplitCharsF sep.data s.data.length s.data).map String.mk

example : jsSplit " " "a b" = ["a", "b"] := by decide
example : jsSplit " > " "a > b" = ["a", "b"] := by decide
example : jsSplit " " "" = [""] := by decide
example : jsSplit " " "#foo\\3a bar" = ["#foo\\3a", "bar"] := by decide

/-- A DOM content node as the serializer consumes it: an element with tag
name (`tagName` casing), id attribute (`""` when absent), class list and
ordered child content nodes, or a text node. -/
inductive DNode where
  | elem (tag idAttr : String) (classes : List String) (children : List DNode)
  | text (s : String)
deriving Repr, Inhabited

/-- The child content nodes of a `DNode` (empty for a text node). -/
def childrenOf : DNode → List DNode
  | .elem _ _ _ kids => kids
  | .text _ => []

/-- The options record of `_css` (src/main.js:500–509). `maxDepth` is
`none` for the JavaScript `Infinity` default. -/
structure CssOpts where
  useIds : Bool
  useClasses : Bool
  includeTagIfNoClasses : Bool
  includeNthChild : Bool
  indent : String
  maxDepth : Option Nat
  maxNodes : Nat
  skipTags : List String
deriving Repr, Inhabited

/-- The selector-relevant fields of a serializer options record. -/
def CssOpts.toSelOpts (o : CssOpts) : SelOpts :=
  { useIds := o.useIds, useClasses := o.useClasses,
    includeTagIfNoClasses := o.includeTagIfNoClasses,
    includeNthChild := o.includeNthChild }

/-- The defaults `Object.assign` installs in `_css` (src/main.js:500–509). -/
def defaultCssOpts : CssOpts :=
  { useIds := true, useClasses := true, includeTagIfNoClasses := true,
    includeNthChild := false, indent := "  ", maxDepth := none,
    maxNodes := 5000, skipTags := ["SCRIPT", "STYLE", "TEMPLATE"] }

/-- `depth > opts.maxDepth` with `Infinity` as `none`. -/
def depthExceeds (depth : Nat) : Option Nat → Bool
  | none => false
  | some m => decide (m < depth)

/-- The closure state of one `_css` call: the running node-visit counter
and the truncation flag (src/main.js:516–517). -/
structure RState where
  nodeCount : Nat
  truncated : Bool
deriving DecidableEq, Repr, Inhabited

/-- JavaScript `s.repeat(n)`. -/
def strRepeat (s : String) : Nat → String
  | 0 => ""
  | n + 1 => strRepeat s n ++ s

/-- The whitespace class of the JavaScript `\s`-collapse in
`textContentsFor` (ASCII part; the spec's scenarios use ASCII text). -/
def jsIsSpace (c : Char) : Bool :=
  c = ' ' || c = '\t' || c = '\n' || c = '\r' || c = '\x0b' || c = '\x0c'

/-- `s.replace(/\s+/g, " ")`: each maximal whitespace run becomes one
space. -/
def collapseWs : List Char → List Char
  | [] => []
  | [c] => if jsIsSpace c then [' '] else [c]
  | c :: d :: rest =>
    if jsIsSpace c && jsIsSpace d then collapseWs (d :: rest)
    else (if jsIsSpace c then ' ' else c) :: collapseWs (d :: rest)

/-- `String.prototype.trim` on character lists. -/
def jsTrim (l : List Char) : List Char :=
  ((l.dropWhile jsIsSpace).reverse.dropWhile jsIsSpace).reverse

/-- The 50-character ceiling of `textContentsFor` (src/main.js:532):
longer strings are cut to 47 characters plus `"..."`. -/
def jsTruncate50 (l : List Char) : List Char :=
  if 50 < l.length then l.take 47 ++ ['.', '.', '.'] else l

/-- The two sequential escapes of `textContentsFor` (src/main.js:533):
`replace(/\\/g, "\\\\")` then `replace(/"/g, '\\"')`; the first introduces
no quotes, so the per-character simultaneous map is equivalent. -/
def escTextChar (c : Char) : List Char :=
  if c = '\\' then ['\\', '\\']
  else if c = '"' then ['\\', '"'] else [c]

/-- Normalize, reject empty, truncate and escape one text node's value
(the shared body of `textContentsFor` and `primaryTextFor`,
src/main.js:529–534 and 545–550). -/
def textProcess (s : String) : Option String :=
  let t := jsTrim (collapseWs s.data)
  if t.isEmpty then none
  else some (String.mk ((jsTruncate50 t).map escTextChar).flatten)

/-- `textContentsFor(node)` (src/main.js:525–538): the processed values of
the direct text children, in order, empties skipped. -/
def textContentsFor (children : List DNode) : List String :=
  children.filterMap fun
    | .text s => textProcess s
    | .elem _ _ _ _ => none

/-- `primaryTextFor(node)` (src/main.js:542–554): the first direct text
child with non-empty processed value, or `""`. -/
def primaryTextFor : List DNode → String
  | [] => ""
  | .text s :: rest =>
    (match textProcess s with
     | some t => t
     | none => primaryTextFor rest)
  | .elem _ _ _ _ :: rest => primaryTextFor rest

/-- One indented `content: "…";` line (src/main.js:571–572, 606–617). -/
def mkContentLine (opts : CssOpts) (depth : Nat) (s : String) : String :=
  strRepeat opts.indent (depth + 1) ++ "content: \"" ++ s ++ "\";\n"

/-- A block's opening line: indent, current selector, ` \x7b`. -/
def blockOpen (opts : CssOpts) (depth : Nat) (curSel : String) : String :=
  strRepeat opts.indent depth ++ curSel ++ " \x7b\n"

/-- A block's closing line. -/
def blockClose (opts : CssOpts) (depth : Nat) : String :=
  strRepeat opts.indent depth ++ "\x7d\n"

/-- The two path content lines every block starts with
(src/main.js:569–572, 604–607). -/
def pathLines (opts : CssOpts) (depth : Nat) (path : List String) : String :=
  mkContentLine opts depth (String.intercalate " " path)
    ++ mkContentLine opts depth (String.intercalate " > " path)

/-- `renderCanonical(node, depth, pathSelectors)` (src/main.js:560–589)
with the closure state passed explicitly.  The child loop is a fold whose
`stop` component models the `break` on the truncation flag; the element
sibling index `idx` feeds the `:nth-child` count.  `fuel` bounds the
recursion depth structurally and strictly exceeds the subtree height at
every call site. -/
def renderCanonical (esc : String → String) (opts : CssOpts) :
    Nat → DNode → Nat → List String → RState → String × RState
  | 0, _, _, _, st => ("", st)
  | _ + 1, .text _, _, _, st => ("", st)
  | fuel + 1, .elem _ _ _ kids, depth, path, st =>
    if depthExceeds depth opts.maxDepth then ("", st)
    else if opts.maxNodes < st.nodeCount + 1 then ("", ⟨st.nodeCount + 1, true⟩)
    else
      let st1 : RState := ⟨st.nodeCount + 1, st.truncated⟩
      let head := blockOpen opts depth (path.getLastD "") ++ pathLines opts depth path
      let r := kids.foldl
        (fun (a : Nat × List String × RState × Bool) child =>
          let (idx, acc, stA, stop) := a
          if stop then a
          else
            match child with
            | .text _ => a
            | .elem t i c ks =>
              if opts.skipTags.contains t then (idx + 1, acc, stA, stop)
              else
                let childSel := selectorFor esc opts.toSelOpts ⟨t, i, c, true, idx⟩
                let res := renderCanonical esc opts fuel (.elem t i c ks)
                  (depth + 1) (path ++ [childSel]) stA
                if res.2.truncated then (idx + 1, acc, res.2, true)
                else if res.1 = "" then (idx + 1, acc, res.2, false)
                else (idx + 1, acc ++ [res.1], res.2, false))
        (0, [], st1, false)
      (head ++ String.join r.2.1 ++ blockClose opts depth, r.2.2.1)

/-- The child-preparation loop of `renderFinal` (src/main.js:622–632):
canonical strings for grouping and `(child, sel)` items, with the same
skip/»empty canonical«/truncation-break behaviour as the source loop. -/
def prepChildren (esc : String → String) (opts : CssOpts) (fuel : Nat)
    (kids : List DNode) (depth : Nat) (path : List String) (st : RState) :
    List String × List (DNode × String) × RState :=
  let r := kids.foldl
    (fun (a : Nat × List String × List (DNode × String) × RState × Bool) child =>
      let (idx, canonAcc, itemsAcc, stA, stop) := a
      if stop then a
      else
        match child with
        | .text _ => a
        | .elem t i c ks =>
          if opts.skipTags.contains t then (idx + 1, canonAcc, itemsAcc, stA, stop)
          else
            let childSel := selectorFor esc opts.toSelOpts ⟨t, i, c, true, idx⟩
            let res := renderCanonical esc opts fuel (.elem t i c ks)
              (depth + 1) (path ++ [childSel]) stA
            if res.2.truncated then (idx + 1, canonAcc, itemsAcc, res.2, true)
            else if res.1 = "" then (idx + 1, canonAcc, itemsAcc, res.2, false)
            else (idx + 1, canonAcc ++ [res.1],
              itemsAcc ++ [(DNode.elem t i c ks, childSel)], res.2, false))
    (0, [], [], st, false)
  (r.2.1, r.2.2.1, r.2.2.2.1)

/-- One step of the grouping `Map` of `renderFinal` (src/main.js:634–645):
append index `i` to the entry for `key`, or append a fresh `(key, [i])`
entry at the end. -/
def pushIndex : List (String × List Nat) → String → Nat → List (String × List Nat)
  | [], key, i => [(key, [i])]
  | (k, l) :: gs, key, i =>
    if k = key then (k, l ++ [i]) :: gs else (k, l) :: pushIndex gs key i

/-- Group the canonical strings by byte equality in first-occurrence
order, each group carrying its member indices in ascending order
(src/main.js:634–645). -/
def groupIndicesAux : List String → Nat → List (String × List Nat) → List (String × List Nat)
  | [], _, acc => acc
  | c :: rest, i, acc => groupIndicesAux rest (i + 1) (pushIndex acc c i)

/-- The groups of `renderFinal` for a canonical-string list. -/
def groupIndices (canon : List String) : List (String × List Nat) :=
  groupIndicesAux canon 0 []

/-- `childFinal.replace(/\{/, rep)`: replace the first `\x7b` character. -/
def replaceFirstBrace : List Char → String → List Char
  | [], _ => []
  | c :: rest, rep =>
    if c = '\x7b' then rep.data ++ rest else c :: replaceFirstBrace rest rep

/-- The occurrence-count marker splice of `renderFinal`
(src/main.js:663–665). -/
def annotateCount (s : String) (count : Nat) : String :=
  String.mk (replaceFirstBrace s.data ("\x7b /** " ++ toString count ++ " times */"))

/-- `renderFinal(node, depth, pathSelectors, overrideTexts)`
(src/main.js:595–672): block opener and path lines, the text content
lines (`overrideTexts` when supplied non-empty, otherwise the node's own
direct texts, with one empty line when there are none), then one final
block per canonical group — annotated with the occurrence count and fed
the members' primary texts when the group has more than one member — and
the closer.  `fuel` as in `renderCanonical`. -/
def renderFinal (esc : String → String) (opts : CssOpts) :
    Nat → DNode → Nat → List String → Option (List String) → RState → String × RState
  | 0, _, _, _, _, st => ("", st)
  | _ + 1, .text _, _, _, _, st => ("", st)
  | fuel + 1, .elem _ _ _ kids, depth, path, overrideTexts, st =>
    if depthExceeds depth opts.maxDepth then ("", st)
    else
      let head := blockOpen opts depth (path.getLastD "") ++ pathLines opts depth path
      let texts :=
        match overrideTexts with
        | some l => if l.isEmpty then textContentsFor kids else l
        | none => textContentsFor kids
      let textLines :=
        if texts.isEmpty then mkContentLine opts depth ""
        else String.join (texts.map (mkContentLine opts depth))
      let p := prepChildren esc opts fuel kids depth path st
      let eg := (groupIndices p.1).foldl
        (fun (a : String × RState) g =>
          let count := g.2.length
          let item := (p.2.1).getD (g.2.headD 0) (DNode.text "", "")
          let ot : Option (List String) :=
            if 1 < count then
              some (g.2.map fun idx =>
                primaryTextFor (childrenOf ((p.2.1).getD idx (DNode.text "", "")).1))
            else none
          let cf := renderFinal esc opts fuel item.1 (depth + 1)
            (path ++ [item.2]) ot a.2
          (a.1 ++ (if 1 < count then annotateCount cf.1 count else cf.1), cf.2))
        ("", p.2.2)
      (head ++ textLines ++ eg.1 ++ blockClose opts depth, eg.2)

/-- The group-emission loop of `renderFinal` (src/main.js:647–667) as a
standalone function of the prepared `items` and `groups`, for stating the
grouping claims; `renderFinal_elem` proves it is the loop the render
runs. -/
def emitGroups (esc : String → String) (opts : CssOpts) (fuel : Nat)
    (items : List (DNode × String)) (groups : List (String × List Nat))
    (depth : Nat) (path : List String) (st : RState) : String × RState :=
  groups.foldl
    (fun (a : String × RState) g =>
      let count := g.2.length
      let item := items.getD (g.2.headD 0) (DNode.text "", "")
      let ot : Option (List String) :=
        if 1 < count then
          some (g.2.map fun idx =>
            primaryTextFor (childrenOf (items.getD idx (DNode.text "", "")).1))
        else none
      let cf := renderFinal esc opts fuel item.1 (depth + 1)
        (path ++ [item.2]) ot a.2
      (a.1 ++ (if 1 < count then annotateCount cf.1 count else cf.1), cf.2))
    ("", st)

/-- The truncation marker `_css` appends (src/main.js:678). -/
def truncMarker : String := "/* truncated: reached maxNodes limit */\n"

mutual

/-- The number of content nodes of a tree, the fuel supplied to the
renders: the source recursion always descends to a strict child, so its
depth — hence the fuel it consumes — is strictly below this size. -/
def sizeD : DNode → Nat
  | .text _ => 1
  | .elem _ _ _ kids => 1 + sizeL kids

/-- The summed sizes of a child list. -/
def sizeL : List DNode → Nat
  | [] => 0
  | c :: rest => sizeD c + sizeL rest

end

/-- `_css(root, options)` (src/main.js:499–684) as a function of the tree
snapshot: `none` or a text node is the invalid-root case (`console.warn`
and `""`; the `Bool` component reports the warning).  The root's selector
needs the root's own sibling context, passed explicitly.  The fuel
`sizeOf root` strictly exceeds the recursion depth, which the source
bounds by descending only to strict children. -/
def cssMain (esc : String → String) (opts : CssOpts) (root : Option DNode)
    (rootHasParent : Bool) (rootPrev : Nat) : String × Bool :=
  match root with
  | none => ("", true)
  | some (.text _) => ("", true)
  | some (.elem t i c kids) =>
    let rootSel := selectorFor esc opts.toSelOpts ⟨t, i, c, rootHasParent, rootPrev⟩
    let r := renderFinal esc opts (sizeD (DNode.elem t i c kids))
      (.elem t i c kids) 0 [rootSel] none ⟨0, false⟩
    (r.1 ++ (if r.2.truncated then truncMarker else ""), false)

/-- Substring test (used to state that an output does or does not contain
a marker). -/
def containsSeg (pat : List Char) : List Char → Bool
  | [] => pat.isEmpty
  | c :: rest => pat.isPrefixOf (c :: rest) || containsSeg pat rest

/-- `s` contains `pat` as a contiguous substring. -/
def containsSub (pat s : String) : Bool :=
  containsSeg pat.data s.data

/-! ## Claim C9 — invalid root -/

/-- Claim C9: a root that is `null` or not an element node makes the
serializer return the empty string with the local warning reported, on
every options record; `cssMain` is total, so no exception is possible. -/
theorem c9_invalid_root (esc : String → String) (opts : CssOpts)
    (rootHasParent : Bool) (rootPrev : Nat) :
    cssMain esc opts none rootHasParent rootPrev = ("", true)
      ∧ ∀ s, cssMain esc opts (some (.text s)) rootHasParent rootPrev = ("", true) :=
  ⟨rfl, fun _ => rfl⟩

/-! ## Claim C7 — determinism of serialization -/

/-- Claim C7: the serializer is a function of the tree snapshot and the
options alone — the closure state (`RState`) is created afresh inside
`cssMain` for every invocation, so two invocations on the same unchanged
subtree with identical options return byte-identical strings. -/
theorem c7_deterministic (esc : String → String) (opts : CssOpts)
    (root : Option DNode) (rootHasParent : Bool) (rootPrev : Nat)
    (out₁ out₂ : String × Bool)
    (h₁ : out₁ = cssMain esc opts root rootHasParent rootPrev)
    (h₂ : out₂ = cssMain esc opts root rootHasParent rootPrev) :
    out₁ = out₂ :=
  h₁.trans h₂.symm

/-- Witness for C7 at a concrete one-element tree. -/
theorem c7_deterministic_witness :
    cssMain cssEscapeFallback defaultCssOpts (some (.elem "DIV" "" [] [])) false 0
      = cssMain cssEscapeFallback defaultCssOpts (some (.elem "DIV" "" [] [])) false 0 :=
  c7_deterministic cssEscapeFallback defaultCssOpts (some (.elem "DIV" "" [] []))
    false 0 _ _ rfl rfl

/-! ## Claim C3 — the `:nth-child` qualifier -/

/-- Claim C3, counterexample: an element with id `a`, a parent and one
preceding element sibling, under `useIds` and `includeNthChild`, gets the
bare token `#a` — the id branch returns before the qualifier is ever
appended, so the claimed `#a:nth-child(2)` is not produced. -/
theorem c3_nth_child_cex :
    selectorFor cssEscapeFallback
        { useIds := true, useClasses := true, includeTagIfNoClasses := true,
          includeNthChild := true } ⟨"DIV", "a", [], true, 1⟩ = "#a"
      ∧ containsSub ":nth-child(" (selectorFor cssEscapeFallback
          { useIds := true, useClasses := true, includeTagIfNoClasses := true,
            includeNthChild := true } ⟨"DIV", "a", [], true, 1⟩) = false := by
  constructor
  · rfl
  · decide

/-- Claim C3 as amended: the `:nth-child(k)` qualifier, with
`k = 1 +` the count of preceding element siblings, is appended only when
the base token comes from the tag/wildcard branch and the node has a
parent; the id branch and the class branch return their token unchanged,
ignoring `includeNthChild`. -/
theorem c3_nth_child_tag_branch_only (esc : String → String) (opts : SelOpts) (n : Elem) :
    (opts.useIds = true → n.idAttr ≠ "" →
      selectorFor esc opts n = "#" ++ esc n.idAttr)
    ∧ ((opts.useIds = false ∨ n.idAttr = "") → opts.useClasses = true →
        n.classes.filter (fun c => c != "") ≠ [] →
        selectorFor esc opts n
          = "." ++ String.intercalate "." ((n.classes.filter (fun c => c != "")).map esc))
    ∧ ((opts.useIds = false ∨ n.idAttr = "") →
        (opts.useClasses = false ∨ n.classes.filter (fun c => c != "") = []) →
        opts.includeNthChild = true → n.hasParent = true →
        selectorFor esc opts n
          = (if opts.includeTagIfNoClasses then strToLower n.tag else "*")
            ++ ":nth-child(" ++ toString (n.prevElemSiblings + 1) ++ ")") := by
  refine ⟨fun hid hne => ?_, fun hid hcls hfil => ?_, fun hid hcls hnth hpar => ?_⟩
  · simp [selectorFor, hid, hne]
  · have hcl : n.classes ≠ [] := by
      intro h
      simp [h] at hfil
    rcases hid with h | h <;>
      simp [selectorFor, h, hcls, hcl, hfil]
  · rcases hid with h | h
    · rcases hcls with h2 | h2 <;>
        simp [selectorFor, h, h2, hnth, hpar]
    · rcases hcls with h2 | h2 <;>
        simp [selectorFor, h, h2, hnth, hpar]

/-- Witness for the amended C3 at concrete nodes: the id branch ignores
the qualifier, the tag branch appends `:nth-child(3)` for two preceding
element siblings. -/
theorem c3_nth_child_tag_branch_only_witness :
    selectorFor cssEscapeFallback
        { useIds := true, useClasses := true, includeTagIfNoClasses := true,
          includeNthChild := true } ⟨"DIV", "a", [], true, 1⟩ = "#a"
      ∧ selectorFor cssEscapeFallback
          { useIds := true, useClasses := true, includeTagIfNoClasses := true,
            includeNthChild := true } ⟨"DIV", "", [], true, 2⟩ = "div:nth-child(3)" := by
  constructor
  · exact (c3_nth_child_tag_branch_only cssEscapeFallback _ _).1 rfl (by decide)
  · exact ((c3_nth_child_tag_branch_only cssEscapeFallback
        { useIds := true, useClasses := true, includeTagIfNoClasses := true,
          includeNthChild := true } ⟨"DIV", "", [], true, 2⟩).2.2
      (Or.inr rfl) (Or.inr (by decide)) rfl rfl).trans (by decide)

/-! ## Claim C6 — the fallback escaper -/

/-- Claim C6, counterexample: with the fallback escaper, the id `foo:bar`
under `useIds` yields the token `#foo\3a bar` — the space terminates the
hex escape *before* `bar`; the claimed token `#foo\3a bar ` with a
trailing space at the end is not produced. -/
theorem c6_escape_cex :
    selectorFor (cssEscape none) (pathSelOpts false) ⟨"DIV", "foo:bar", [], false, 0⟩
        ≠ "#foo\\3a bar " := by
  decide

/-- Claim C6 as amended: with the native facility unavailable, the token
for id `foo:bar` under `useIds` is `#foo\3a bar` (backslash, lowercase hex
code point, terminating space, then the remaining characters — no space at
the end of the token), and every character outside `[A-Za-z0-9_-]` is
rewritten to this hex-escape form while safe characters pass through. -/
theorem c6_escape_fallback (c : Char) :
    selectorFor (cssEscape none) (pathSelOpts false) ⟨"DIV", "foo:bar", [], false, 0⟩
        = "#foo\\3a bar"
      ∧ (isCssSafe c = false →
          escapeChar c = "\\" ++ String.mk (Nat.toDigits 16 c.toNat) ++ " ")
      ∧ (isCssSafe c = true → escapeChar c = String.singleton c)
      ∧ ∀ s, cssEscapeFallback s = String.join (s.data.map escapeChar) := by
  refine ⟨by rfl, fun h => ?_, fun h => ?_, fun s => rfl⟩
  · simp [escapeChar, h]
  · simp [escapeChar, h]

/-- Witness for the amended C6 at the colon: `\3a ` with lowercase hex. -/
theorem c6_escape_fallback_witness :
    escapeChar ':' = "\\" ++ String.mk (Nat.toDigits 16 (Char.toNat ':')) ++ " " :=
  (c6_escape_fallback ':').2.1 (by decide)

/-! ## Claim C8 — ancestor equals target -/

/-- The upward walk stops immediately when the current node is the
ancestor, whatever the guard value and parent chain. -/
theorem intercalate_single (s x : String) : String.intercalate s [x] = x := rfl

theorem collectChain_self (a : Elem) (parents : List Elem) (fuel : Nat) :
    collectChain a a parents (fuel + 1) = [a] := by
  rw [collectChain.eq_def]
  simp

/-- Claim C8: `pathsBetween(A, A, opts)` walks a one-element chain, so
both notations are the single selector token of `A` and
`descendant = child`. -/
theorem c8_self_path (esc : String → String) (nth : Bool) (a : Elem)
    (parents : List Elem) :
    chainBetween a a parents = [a]
      ∧ (pathSels esc nth a a parents).length = 1
      ∧ buildPathsBetween esc nth a a parents
          = { descendant := selectorFor esc (pathSelOpts nth) a,
              child := selectorFor esc (pathSelOpts nth) a }
      ∧ (buildPathsBetween esc nth a a parents).descendant
          = (buildPathsBetween esc nth a a parents).child := by
  have hc : chainBetween a a parents = [a] := by
    have h5 : (5000 : Nat) = 4999 + 1 := rfl
    simp [chainBetween, h5, collectChain_self]
  have hs : pathSels esc nth a a parents = [selectorFor esc (pathSelOpts nth) a] := by
    simp [pathSels, hc]
  refine ⟨hc, by simp [hs], ?_, ?_⟩
  · simp [buildPathsBetween, hs, intercalate_single]
  · simp [buildPathsBetween, hs, intercalate_single]

/-! ## Claim C4 — token counts across the two notations -/

/-- Join character-list tokens with a separator (the character-level view
of `Array.prototype.join`). -/
def joinSep (sep : List Char) : List (List Char) → List Char
  | [] => []
  | [a] => a
  | a :: rest => a ++ sep ++ joinSep sep rest

theorem joinSep_cons_cons (sep a b : List Char) (rest : List (List Char)) :
    joinSep sep (a :: b :: rest) = a ++ sep ++ joinSep sep (b :: rest) := rfl

theorem joinSep_expand (sep : List Char) (x : List Char) (xs : List (List Char)) :
    joinSep sep (x :: xs) = x ++ (xs.map fun y => sep ++ y).flatten := by
  induction xs generalizing x with
  | nil => simp [joinSep]
  | cons y ys ih => simp [joinSep_cons_cons, ih y, List.append_assoc]

theorem intercalate_go_data (s : String) (as : List String) (acc : String) :
    (String.intercalate.go acc s as).data
      = acc.data ++ (as.map fun x => s.data ++ x.data).flatten := by
  induction as generalizing acc with
  | nil => simp [String.intercalate.go]
  | cons a as ih =>
    simp [String.intercalate.go, ih, String.data_append, List.append_assoc]

/-- The character list of a `String.intercalate` join. -/
theorem intercalate_data (s : String) (l : List String) :
    (String.intercalate s l).data = joinSep s.data (l.map String.data) := by
  cases l with
  | nil => rfl
  | cons a as =>
    rw [show String.intercalate s (a :: as) = String.intercalate.go a s as from rfl,
      intercalate_go_data, List.map_cons, joinSep_expand, List.map_map]
    rfl

/-- The split's fuel is irrelevant once it covers the input length (for a
non-empty separator, the only case the development uses). -/
theorem jsSplitCharsF_fuel (s0 : Char) (ss : List Char) :
    ∀ fuel₁ fuel₂ l, l.length ≤ fuel₁ → l.length ≤ fuel₂ →
      jsSplitCharsF (s0 :: ss) fuel₁ l = jsSplitCharsF (s0 :: ss) fuel₂ l := by
  intro fuel₁
  induction fuel₁ with
  | zero =>
    intro fuel₂ l h₁ _
    have : l = [] := List.eq_nil_of_length_eq_zero (Nat.le_zero.mp h₁)
    subst this
    cases fuel₂ <;> rfl
  | succ f₁ ih =>
    intro fuel₂ l h₁ h₂
    cases l with
    | nil => cases fuel₂ <;> rfl
    | cons c rest =>
      cases fuel₂ with
      | zero => simp at h₂
      | succ f₂ =>
        simp only [jsSplitCharsF]
        by_cases hp : (s0 :: ss).isPrefixOf (c :: rest) = true
        · simp only [hp, if_true]
          have hd : ((c :: rest).drop (s0 :: ss).length).length ≤ f₁ := by
            simp only [List.length_drop, List.length_cons] at *
            omega
          have hd₂ : ((c :: rest).drop (s0 :: ss).length).length ≤ f₂ := by
            simp only [List.length_drop, List.length_cons] at *
            omega
          rw [ih f₂ _ hd hd₂]
        · simp only [Bool.not_eq_true] at hp
          simp only [hp, Bool.false_eq_true, if_false]
          have hr : rest.length ≤ f₁ := by
            simp only [List.length_cons] at h₁; omega
          have hr₂ : rest.length ≤ f₂ := by
            simp only [List.length_cons] at h₂; omega
          rw [ih f₂ rest hr hr₂]

theorem isPrefixOf_append (l r : List Char) : l.isPrefixOf (l ++ r) = true := by
  induction l with
  | nil => simp [List.isPrefixOf]
  | cons c cs ih => simp [List.isPrefixOf, ih]

/-- Splitting a token that avoids the separator's first character leaves
it whole, for any fuel. -/
theorem jsSplitCharsF_whole (ss : List Char) (t : List Char) (h : ' ' ∉ t) :
    ∀ fuel, jsSplitCharsF (' ' :: ss) fuel t = [t] := by
  induction t with
  | nil => intro fuel; cases fuel <;> rfl
  | cons c rest ih =>
    intro fuel
    have hc : c ≠ ' ' := fun hc => h (hc ▸ List.mem_cons_self c rest)
    have hrest : ' ' ∉ rest := fun hr => h (List.mem_cons_of_mem c hr)
    cases fuel with
    | zero => rfl
    | succ f =>
      have hp : (' ' :: ss).isPrefixOf (c :: rest) = false := by
        simp [List.isPrefixOf]
        intro he
        exact absurd he.symm hc
      simp only [jsSplitCharsF, hp, Bool.false_eq_true, if_false]
      rw [ih hrest f]

/-- Splitting `t ++ sep ++ r` for a separator-free token `t` cuts exactly
at the separator. -/
theorem jsSplitCharsF_cut (ss : List Char) :
    ∀ (t : List Char), ' ' ∉ t → ∀ r fuel,
      (t ++ (' ' :: ss) ++ r).length ≤ fuel →
      jsSplitCharsF (' ' :: ss) fuel (t ++ (' ' :: ss) ++ r)
        = t :: jsSplitCharsF (' ' :: ss) r.length r := by
  intro t
  induction t with
  | nil =>
    intro _ r fuel hlen
    simp only [List.nil_append] at hlen ⊢
    cases fuel with
    | zero => simp at hlen
    | succ f =>
      have hp : (' ' :: ss).isPrefixOf ((' ' :: ss) ++ r) = true := isPrefixOf_append _ _
      have hcons : (' ' :: ss) ++ r = ' ' :: (ss ++ r) := rfl
      rw [hcons] at hp ⊢
      simp only [jsSplitCharsF, hp, if_true]
      have hdrop : (' ' :: (ss ++ r)).drop (' ' :: ss).length = r := by
        have : (' ' :: (ss ++ r)) = (' ' :: ss) ++ r := rfl
        rw [this, List.drop_left]
      rw [hdrop]
      have hr : r.length ≤ f := by
        simp only [List.length_cons, List.length_append] at hlen
        omega
      rw [jsSplitCharsF_fuel ' ' ss f r.length r hr (Nat.le_refl _)]
  | cons c t' ih =>
    intro h r fuel hlen
    have hc : c ≠ ' ' := fun hc => h (hc ▸ List.mem_cons_self c t')
    have ht' : ' ' ∉ t' := fun hr => h (List.mem_cons_of_mem c hr)
    have hsh : (c :: t') ++ (' ' :: ss) ++ r = c :: (t' ++ (' ' :: ss) ++ r) := by
      simp
    rw [hsh] at hlen ⊢
    cases fuel with
    | zero => simp at hlen
    | succ f =>
      have hp : (' ' :: ss).isPrefixOf (c :: (t' ++ (' ' :: ss) ++ r)) = false := by
        simp [List.isPrefixOf]
        intro he
        exact absurd he.symm hc
      simp only [jsSplitCharsF, hp, Bool.false_eq_true, if_false]
      have hlen' : (t' ++ (' ' :: ss) ++ r).length ≤ f := by
        simp only [List.length_cons] at hlen
        omega
      rw [ih ht' r f hlen']

/-- Splitting the separator-join of separator-free tokens recovers the
tokens, for any sufficient fuel. -/
theorem jsSplitCharsF_joinSep (ss : List Char) :
    ∀ (toks : List (List Char)), toks ≠ [] → (∀ x ∈ toks, ' ' ∉ x) →
      ∀ fuel, (joinSep (' ' :: ss) toks).length ≤ fuel →
      jsSplitCharsF (' ' :: ss) fuel (joinSep (' ' :: ss) toks) = toks := by
  intro toks
  induction toks with
  | nil => intro h; exact absurd rfl h
  | cons x xs ih =>
    intro _ hfree fuel hlen
    cases xs with
    | nil =>
      exact jsSplitCharsF_whole ss x (hfree x (List.mem_cons_self x [])) fuel
    | cons y ys =>
      rw [joinSep_cons_cons] at hlen ⊢
      rw [jsSplitCharsF_cut ss x (hfree x (List.mem_cons_self x _)) _ fuel hlen]
      congr 1
      exact ih (by simp) (fun z hz => hfree z (List.mem_cons_of_mem x hz))
        (joinSep (' ' :: ss) (y :: ys)).length (Nat.le_refl _)

/-- The chain between two elements is never empty: the walk always pushes
the target, and the defensive branch only appends. -/
theorem chainBetween_ne_nil (a t : Elem) (parents : List Elem) :
    chainBetween a t parents ≠ [] := by
  unfold chainBetween
  intro hrev
  rw [List.reverse_eq_nil_iff] at hrev
  have hcc : collectChain a t parents 5000 ≠ [] := by
    rw [show (5000 : Nat) = 4999 + 1 from rfl, collectChain.eq_def]
    simp
  split at hrev
  · exact hcc hrev
  · simp at hrev

/-- Claim C4, counterexample: with the fallback escaper, the id `foo:bar`
makes the single selector token `#foo\3a bar` contain a space, so the
descendant string splits into 2 pieces on `" "` while the child string
splits into 1 piece on `" > "`. -/
theorem c4_token_counts_cex :
    ¬ ((jsSplit " " (buildPathsBetween (cssEscape none) false
          ⟨"DIV", "foo:bar", [], false, 0⟩ ⟨"DIV", "foo:bar", [], false, 0⟩ []).descendant).length
        = (jsSplit " > " (buildPathsBetween (cssEscape none) false
          ⟨"DIV", "foo:bar", [], false, 0⟩ ⟨"DIV", "foo:bar", [], false, 0⟩ []).child).length) := by
  decide

/-- Claim C4 as amended: for every ancestor/target pair whose selector
tokens are all space-free (the fallback hex escape can embed spaces in a
token, which breaks the raw count), splitting `descendant` on `" "` and
`child` on `" > "` yields the same number of pieces — the common token
count of the chain. -/
theorem c4_token_counts (esc : String → String) (nth : Bool) (a t : Elem)
    (parents : List Elem)
    (h : ∀ s ∈ pathSels esc nth a t parents, ' ' ∉ s.data) :
    (jsSplit " " (buildPathsBetween esc nth a t parents).descendant).length
      = (jsSplit " > " (buildPathsBetween esc nth a t parents).child).length := by
  have hsels : pathSels esc nth a t parents ≠ [] := by
    unfold pathSels
    simp only [ne_eq, List.map_eq_nil_iff]
    exact chainBetween_ne_nil a t parents
  have htoksne : (pathSels esc nth a t parents).map String.data ≠ [] := by
    simp only [ne_eq, List.map_eq_nil_iff]
    exact hsels
  have htoks : ∀ x ∈ (pathSels esc nth a t parents).map String.data, ' ' ∉ x := by
    intro x hx
    rcases List.mem_map.mp hx with ⟨s, hs, rfl⟩
    exact h s hs
  have hd : (buildPathsBetween esc nth a t parents).descendant.data
      = joinSep [' '] ((pathSels esc nth a t parents).map String.data) := by
    show (String.intercalate " " (pathSels esc nth a t parents)).data = _
    rw [intercalate_data]
  have hc : (buildPathsBetween esc nth a t parents).child.data
      = joinSep [' ', '>', ' '] ((pathSels esc nth a t parents).map String.data) := by
    show (String.intercalate " > " (pathSels esc nth a t parents)).data = _
    rw [intercalate_data]
  have h1 : jsSplit " " (buildPathsBetween esc nth a t parents).descendant
      = ((pathSels esc nth a t parents).map String.data).map String.mk := by
    show (jsSplitCharsF (" ").data _ _).map String.mk = _
    rw [hd]
    rw [show (" ").data = [' '] from rfl]
    rw [jsSplitCharsF_joinSep [] _ htoksne htoks _ (Nat.le_refl _)]
  have h2 : jsSplit " > " (buildPathsBetween esc nth a t parents).child
      = ((pathSels esc nth a t parents).map String.data).map String.mk := by
    show (jsSplitCharsF (" > ").data _ _).map String.mk = _
    rw [hc]
    rw [show (" > ").data = [' ', '>', ' '] from rfl]
    rw [jsSplitCharsF_joinSep ['>', ' '] _ htoksne htoks _ (Nat.le_refl _)]
  rw [h1, h2]

/-- Witness for the amended C4: a class-only self pair has the space-free
token `.x`, and both splits have one piece. -/
theorem c4_token_counts_witness :
    (jsSplit " " (buildPathsBetween cssEscapeFallback false
        ⟨"DIV", "", ["x"], false, 0⟩ ⟨"DIV", "", ["x"], false, 0⟩ []).descendant).length
      = (jsSplit " > " (buildPathsBetween cssEscapeFallback false
        ⟨"DIV", "", ["x"], false, 0⟩ ⟨"DIV", "", ["x"], false, 0⟩ []).child).length :=
  c4_token_counts cssEscapeFallback false ⟨"DIV", "", ["x"], false, 0⟩
    ⟨"DIV", "", ["x"], false, 0⟩ [] (by decide)

/-! ## Claim C5 — ancestor not found on the upward walk -/

/-- Claim C5, counterexample: `A` (id `anc`) is not an ancestor of `T`
(id `tgt`, sole parent `P` with id `par`).  The effective
`_buildPathsBetween` (the later definition, which shadows the
ancestry-rebuilding variant) neither slices the boundary ancestry nor
degrades to a single-token path: it appends the stray ancestor to the
fully walked chain, producing the three-token path `#anc #par #tgt` whose
head token belongs to the non-ancestor. -/
theorem c5_not_found_cex :
    buildPathsBetween (cssEscape none) false ⟨"NAV", "anc", [], false, 0⟩
        ⟨"SPAN", "tgt", [], true, 0⟩ [⟨"DIV", "par", [], false, 0⟩]
      = { descendant := "#anc #par #tgt", child := "#anc > #par > #tgt" }
      ∧ ("#anc #par #tgt" : String) ≠ "#tgt"
      ∧ ("#anc #par #tgt" : String) ≠ "#anc" := by
  refine ⟨by decide, by decide, by decide⟩

/-- Claim C5 as amended: whenever the ancestor is not the last node of the
bounded upward walk from the target, the effective `pathsBetween` simply
appends the ancestor to the walked chain and reverses it — the resulting
token list starts with the ancestor's token and continues with the walked
nodes — and it still returns a `PathPair` rather than failing; the
ancestry-rebuild-and-slice recovery exists only in the earlier, shadowed
definition of `_buildPathsBetween`. -/
theorem c5_not_found_appends (esc : String → String) (nth : Bool)
    (a t : Elem) (parents : List Elem)
    (hnf : (collectChain a t parents 5000).getLast? ≠ some a) :
    chainBetween a t parents = (collectChain a t parents 5000 ++ [a]).reverse
      ∧ (pathSels esc nth a t parents).head?
          = some (selectorFor esc (pathSelOpts nth) a)
      ∧ buildPathsBetween esc nth a t parents
          = { descendant := String.intercalate " " (pathSels esc nth a t parents),
              child := String.intercalate " > " (pathSels esc nth a t parents) } := by
  have hc : chainBetween a t parents = (collectChain a t parents 5000 ++ [a]).reverse := by
    unfold chainBetween
    simp only [hnf, if_false]
  refine ⟨hc, ?_, rfl⟩
  unfold pathSels
  rw [hc]
  simp

/-- The three concrete elements of the C5 stray-ancestor scenario. -/
def ancElem : Elem := ⟨"NAV", "anc", [], false, 0⟩

/-- The click target of the C5 scenario. -/
def tgtElem : Elem := ⟨"SPAN", "tgt", [], true, 0⟩

/-- The target's only parent in the C5 scenario. -/
def parElem : Elem := ⟨"DIV", "par", [], false, 0⟩

/-- Witness for the amended C5 at the concrete stray-ancestor input. -/
theorem c5_not_found_appends_witness :
    chainBetween ancElem tgtElem [parElem]
        = (collectChain ancElem tgtElem [parElem] 5000 ++ [ancElem]).reverse
      ∧ (pathSels (cssEscape none) false ancElem tgtElem [parElem]).head?
          = some (selectorFor (cssEscape none) (pathSelOpts false) ancElem)
      ∧ buildPathsBetween (cssEscape none) false ancElem tgtElem [parElem]
          = { descendant := String.intercalate " "
                (pathSels (cssEscape none) false ancElem tgtElem [parElem]),
              child := String.intercalate " > "
                (pathSels (cssEscape none) false ancElem tgtElem [parElem]) } :=
  c5_not_found_appends (cssEscape none) false ancElem tgtElem [parElem] (by decide)

/-! ## Claim C2 — the node budget -/

mutual

/-- The number of element nodes of a tree (the population the claim's
"more than `maxNodes` retained element nodes" counts; text nodes are not
elements). -/
def countElems : DNode → Nat
  | .text _ => 0
  | .elem _ _ _ kids => 1 + countElemsL kids

/-- Element count of a child list. -/
def countElemsL : List DNode → Nat
  | [] => 0
  | c :: rest => countElems c + countElemsL rest

end

/-- The body of `renderCanonical`'s child loop (src/main.js:574-582) as a
named step function; `renderCanonical_elem` identifies the loop. -/
def canonStep (esc : String → String) (opts : CssOpts) (fuel depth : Nat)
    (path : List String) (a : Nat × List String × RState × Bool) (child : DNode) :
    Nat × List String × RState × Bool :=
  let (idx, acc, stA, stop) := a
  if stop then a
  else
    match child with
    | .text _ => a
    | .elem t i c ks =>
      if opts.skipTags.contains t then (idx + 1, acc, stA, stop)
      else
        let childSel := selectorFor esc opts.toSelOpts ⟨t, i, c, true, idx⟩
        let res := renderCanonical esc opts fuel (.elem t i c ks)
          (depth + 1) (path ++ [childSel]) stA
        if res.2.truncated then (idx + 1, acc, res.2, true)
        else if res.1 = "" then (idx + 1, acc, res.2, false)
        else (idx + 1, acc ++ [res.1], res.2, false)

/-- Unfolding equation for `renderCanonical` on an element, with the child
loop expressed through `canonStep`. -/
theorem renderCanonical_elem (esc : String → String) (opts : CssOpts)
    (fuel : Nat) (tg idA : String) (cls : List String) (kids : List DNode)
    (depth : Nat) (path : List String) (st : RState) :
    renderCanonical esc opts (fuel + 1) (.elem tg idA cls kids) depth path st
      = if depthExceeds depth opts.maxDepth then ("", st)
        else if opts.maxNodes < st.nodeCount + 1 then ("", ⟨st.nodeCount + 1, true⟩)
        else
          let st1 : RState := ⟨st.nodeCount + 1, st.truncated⟩
          let head := blockOpen opts depth (path.getLastD "") ++ pathLines opts depth path
          let r := kids.foldl (canonStep esc opts fuel depth path) (0, [], st1, false)
          (head ++ String.join r.2.1 ++ blockClose opts depth, r.2.2.1) := rfl

/-- Generic preservation through a left fold. -/
theorem foldl_preserve {α β : Type} (P : α → Prop) (f : α → β → α)
    (h : ∀ a b, P a → P (f a b)) : ∀ (l : List β) (a : α), P a → P (l.foldl f a) := by
  intro l
  induction l with
  | nil => intro a ha; exact ha
  | cons b bs ih => intro a ha; exact ih (f a b) (h a b ha)

/-- The truncation flag of the canonical render is exactly "the running
counter has exceeded `maxNodes`": the flag is set with the counter's
overrun and never reset, and the counter never decreases. -/
theorem renderCanonical_inv (esc : String → String) (opts : CssOpts) :
    ∀ (fuel : Nat) (node : DNode) (depth : Nat) (path : List String) (st : RState),
      st.truncated = decide (opts.maxNodes < st.nodeCount) →
      (renderCanonical esc opts fuel node depth path st).2.truncated
        = decide (opts.maxNodes
            < (renderCanonical esc opts fuel node depth path st).2.nodeCount) := by
  intro fuel
  induction fuel with
  | zero => intro node depth path st h; exact h
  | succ fuel ih =>
    intro node depth path st h
    cases node with
    | text s => exact h
    | elem tg idA cls kids =>
      rw [renderCanonical_elem]
      by_cases hd : depthExceeds depth opts.maxDepth
      · simp only [hd, if_true]; exact h
      · simp only [hd, Bool.false_eq_true, if_false]
        by_cases hb : opts.maxNodes < st.nodeCount + 1
        · simp only [hb, if_true]
          simp [hb]
        · simp only [hb, if_false]
          have hst1 : (⟨st.nodeCount + 1, st.truncated⟩ : RState).truncated
              = decide (opts.maxNodes < (⟨st.nodeCount + 1, st.truncated⟩ : RState).nodeCount) := by
            simp only []
            rw [h]
            simp only [decide_eq_decide]
            omega
          have := foldl_preserve
            (fun a : Nat × List String × RState × Bool =>
              a.2.2.1.truncated = decide (opts.maxNodes < a.2.2.1.nodeCount))
            (canonStep esc opts fuel depth path) ?_ kids (0, [], ⟨st.nodeCount + 1, st.truncated⟩, false) hst1
          · exact this
          · intro a b ha
            obtain ⟨idx, acc, stA, stop⟩ := a
            simp only [canonStep]
            by_cases hstop : stop
            · simp only [hstop, if_true]; exact ha
            · simp only [hstop, Bool.false_eq_true, if_false]
              cases b with
              | text s => exact ha
              | elem t i c ks =>
                by_cases hskip : opts.skipTags.contains t
                · simp only [hskip, if_true]; exact ha
                · simp only [hskip, Bool.false_eq_true, if_false]
                  have hres := ih (.elem t i c ks) (depth + 1)
                    (path ++ [selectorFor esc opts.toSelOpts ⟨t, i, c, true, idx⟩]) stA ha
                  split
                  · exact hres
                  · split <;> exact hres

/-- The body of `renderFinal`'s preparation loop (src/main.js:622-632) as
a named step function. -/
def prepStep (esc : String → String) (opts : CssOpts) (fuel depth : Nat)
    (path : List String)
    (a : Nat × List String × List (DNode × String) × RState × Bool) (child : DNode) :
    Nat × List String × List (DNode × String) × RState × Bool :=
  let (idx, canonAcc, itemsAcc, stA, stop) := a
  if stop then a
  else
    match child with
    | .text _ => a
    | .elem t i c ks =>
      if opts.skipTags.contains t then (idx + 1, canonAcc, itemsAcc, stA, stop)
      else
        let childSel := selectorFor esc opts.toSelOpts ⟨t, i, c, true, idx⟩
        let res := renderCanonical esc opts fuel (.elem t i c ks)
          (depth + 1) (path ++ [childSel]) stA
        if res.2.truncated then (idx + 1, canonAcc, itemsAcc, res.2, true)
        else if res.1 = "" then (idx + 1, canonAcc, itemsAcc, res.2, false)
        else (idx + 1, canonAcc ++ [res.1],
          itemsAcc ++ [(DNode.elem t i c ks, childSel)], res.2, false)

/-- `prepChildren` is the fold of `prepStep`. -/
theorem prepChildren_eq (esc : String → String) (opts : CssOpts) (fuel : Nat)
    (kids : List DNode) (depth : Nat) (path : List String) (st : RState) :
    prepChildren esc opts fuel kids depth path st
      = (let r := kids.foldl (prepStep esc opts fuel depth path) (0, [], [], st, false)
         (r.2.1, r.2.2.1, r.2.2.2.1)) := rfl

/-- The body of the group-emission loop (src/main.js:647-667) as a named
step function. -/
def emitStep (esc : String → String) (opts : CssOpts) (fuel : Nat)
    (items : List (DNode × String)) (depth : Nat) (path : List String)
    (a : String × RState) (g : String × List Nat) : String × RState :=
  let count := g.2.length
  let item := items.getD (g.2.headD 0) (DNode.text "", "")
  let ot : Option (List String) :=
    if 1 < count then
      some (g.2.map fun idx =>
        primaryTextFor (childrenOf (items.getD idx (DNode.text "", "")).1))
    else none
  let cf := renderFinal esc opts fuel item.1 (depth + 1) (path ++ [item.2]) ot a.2
  (a.1 ++ (if 1 < count then annotateCount cf.1 count else cf.1), cf.2)

/-- `emitGroups` is the fold of `emitStep`. -/
theorem emitGroups_eq (esc : String → String) (opts : CssOpts) (fuel : Nat)
    (items : List (DNode × String)) (groups : List (String × List Nat))
    (depth : Nat) (path : List String) (st : RState) :
    emitGroups esc opts fuel items groups depth path st
      = groups.foldl (emitStep esc opts fuel items depth path) ("", st) := rfl

/-- Unfolding equation for `renderFinal` on an element: the emitted block
is the opener, the path lines, the text lines, the group emission over the
prepared children, and the closer. -/
theorem renderFinal_elem (esc : String → String) (opts : CssOpts)
    (fuel : Nat) (tg idA : String) (cls : List String) (kids : List DNode)
    (depth : Nat) (path : List String) (ot : Option (List String)) (st : RState) :
    renderFinal esc opts (fuel + 1) (.elem tg idA cls kids) depth path ot st
      = if depthExceeds depth opts.maxDepth then ("", st)
        else
          let head := blockOpen opts depth (path.getLastD "") ++ pathLines opts depth path
          let texts :=
            match ot with
            | some l => if l.isEmpty then textContentsFor kids else l
            | none => textContentsFor kids
          let textLines :=
            if texts.isEmpty then mkContentLine opts depth ""
            else String.join (texts.map (mkContentLine opts depth))
          let p := prepChildren esc opts fuel kids depth path st
          let eg := emitGroups esc opts fuel p.2.1 (groupIndices p.1) depth path p.2.2
          (head ++ textLines ++ eg.1 ++ blockClose opts depth, eg.2) := rfl

/-- `prepChildren` preserves the "flag equals counter overrun"
invariant. -/
theorem prepChildren_inv (esc : String → String) (opts : CssOpts) (fuel : Nat)
    (kids : List DNode) (depth : Nat) (path : List String) (st : RState)
    (h : st.truncated = decide (opts.maxNodes < st.nodeCount)) :
    (prepChildren esc opts fuel kids depth path st).2.2.truncated
      = decide (opts.maxNodes
          < (prepChildren esc opts fuel kids depth path st).2.2.nodeCount) := by
  rw [prepChildren_eq]
  have := foldl_preserve
    (fun a : Nat × List String × List (DNode × String) × RState × Bool =>
      a.2.2.2.1.truncated = decide (opts.maxNodes < a.2.2.2.1.nodeCount))
    (prepStep esc opts fuel depth path) ?_ kids (0, [], [], st, false) h
  · exact this
  · intro a b ha
    obtain ⟨idx, canonAcc, itemsAcc, stA, stop⟩ := a
    simp only [prepStep]
    by_cases hstop : stop
    · simp only [hstop, if_true]; exact ha
    · simp only [hstop, Bool.false_eq_true, if_false]
      cases b with
      | text s => exact ha
      | elem t i c ks =>
        by_cases hskip : opts.skipTags.contains t
        · simp only [hskip, if_true]; exact ha
        · simp only [hskip, Bool.false_eq_true, if_false]
          have hres := renderCanonical_inv esc opts fuel (.elem t i c ks) (depth + 1)
            (path ++ [selectorFor esc opts.toSelOpts ⟨t, i, c, true, idx⟩]) stA ha
          split
          · exact hres
          · split <;> exact hres

/-- The final render preserves the "flag equals counter overrun"
invariant (its canonical sub-renders are the only counter writers). -/
theorem renderFinal_inv (esc : String → String) (opts : CssOpts) :
    ∀ (fuel : Nat) (node : DNode) (depth : Nat) (path : List String)
      (ot : Option (List String)) (st : RState),
      st.truncated = decide (opts.maxNodes < st.nodeCount) →
      (renderFinal esc opts fuel node depth path ot st).2.truncated
        = decide (opts.maxNodes
            < (renderFinal esc opts fuel node depth path ot st).2.nodeCount) := by
  intro fuel
  induction fuel with
  | zero => intro node depth path ot st h; exact h
  | succ fuel ih =>
    intro node depth path ot st h
    cases node with
    | text s => exact h
    | elem tg idA cls kids =>
      rw [renderFinal_elem]
      by_cases hd : depthExceeds depth opts.maxDepth
      · simp only [hd, if_true]; exact h
      · simp only [hd, Bool.false_eq_true, if_false]
        have hprep := prepChildren_inv esc opts fuel kids depth path st h
        rw [emitGroups_eq]
        have := foldl_preserve
          (fun a : String × RState =>
            a.2.truncated = decide (opts.maxNodes < a.2.nodeCount))
          (emitStep esc opts fuel (prepChildren esc opts fuel kids depth path st).2.1 depth path)
          ?_ (groupIndices (prepChildren esc opts fuel kids depth path st).1)
          ("", (prepChildren esc opts fuel kids depth path st).2.2) hprep
        · exact this
        · intro a g ha
          simp only [emitStep]
          exact ih _ _ _ _ _ ha

/-- The canonical render never decreases the node-visit counter. -/
theorem renderCanonical_mono (esc : String → String) (opts : CssOpts) :
    ∀ (fuel : Nat) (node : DNode) (depth : Nat) (path : List String) (st : RState),
      st.nodeCount ≤ (renderCanonical esc opts fuel node depth path st).2.nodeCount := by
  intro fuel
  induction fuel with
  | zero => intro node depth path st; exact Nat.le_refl _
  | succ fuel ih =>
    intro node depth path st
    cases node with
    | text s => exact Nat.le_refl _
    | elem tg idA cls kids =>
      rw [renderCanonical_elem]
      by_cases hd : depthExceeds depth opts.maxDepth
      · simp only [hd, if_true]
        exact Nat.le_refl _
      · simp only [hd, Bool.false_eq_true, if_false]
        by_cases hb : opts.maxNodes < st.nodeCount + 1
        · simp only [hb, if_true]
          exact Nat.le_succ _
        · simp only [hb, if_false]
          have := foldl_preserve
            (fun a : Nat × List String × RState × Bool =>
              st.nodeCount + 1 ≤ a.2.2.1.nodeCount)
            (canonStep esc opts fuel depth path) ?_ kids
            (0, [], ⟨st.nodeCount + 1, st.truncated⟩, false) (Nat.le_refl _)
          · exact Nat.le_trans (Nat.le_succ _) this
          · intro a b ha
            obtain ⟨idx, acc, stA, stop⟩ := a
            simp only [canonStep]
            by_cases hstop : stop
            · simp only [hstop, if_true]; exact ha
            · simp only [hstop, Bool.false_eq_true, if_false]
              cases b with
              | text s => exact ha
              | elem t i c ks =>
                by_cases hskip : opts.skipTags.contains t
                · simp only [hskip, if_true]; exact ha
                · simp only [hskip, Bool.false_eq_true, if_false]
                  have hres := ih (.elem t i c ks) (depth + 1)
                    (path ++ [selectorFor esc opts.toSelOpts ⟨t, i, c, true, idx⟩]) stA
                  have htr := Nat.le_trans ha hres
                  split
                  · exact htr
                  · split <;> exact htr

set_option maxRecDepth 8000 in
/-- Claim C2, counterexample: `maxNodes = 3` on a subtree of 4 retained
element nodes (a root with three children) produces *no* truncation
marker — the root itself is never canonically counted, so only 3 counter
increments happen and the budget is not exceeded. -/
theorem c2_truncation_cex :
    3 < countElems (DNode.elem "DIV" "" []
        [.elem "A" "" [] [], .elem "B" "" [] [], .elem "C" "" [] []])
      ∧ containsSub truncMarker
          (cssMain cssEscapeFallback
            { useIds := true, useClasses := true, includeTagIfNoClasses := true,
              includeNthChild := false, indent := "  ", maxDepth := none,
              maxNodes := 3, skipTags := ["SCRIPT", "STYLE", "TEMPLATE"] }
            (some (.elem "DIV" "" []
              [.elem "A" "" [] [], .elem "B" "" [] [], .elem "C" "" [] []]))
            false 0).1 = false := by
  constructor
  · decide
  · decide

/-- Claim C2 as amended: the truncation marker appears exactly when the
running canonical-render counter exceeded `maxNodes` (which a subtree with
more than `maxNodes` element nodes need not cause, since the root is never
canonically counted and grouping can re-count nodes); each canonical
render call on an element within the depth bound increments the counter at
least its own once; and once the counter has reached the budget, the next
canonical render increments it, sets the truncation flag and returns the
empty string without visiting children — short-circuiting deeper
recursion. -/
theorem c2_budget :
    (∀ (esc : String → String) (opts : CssOpts) (tg idA : String)
        (cls : List String) (kids : List DNode) (hp : Bool) (pv : Nat),
      (cssMain esc opts (some (.elem tg idA cls kids)) hp pv).1
        = (renderFinal esc opts (sizeD (.elem tg idA cls kids)) (.elem tg idA cls kids) 0
            [selectorFor esc opts.toSelOpts ⟨tg, idA, cls, hp, pv⟩] none ⟨0, false⟩).1
          ++ (if (renderFinal esc opts (sizeD (.elem tg idA cls kids)) (.elem tg idA cls kids) 0
              [selectorFor esc opts.toSelOpts ⟨tg, idA, cls, hp, pv⟩] none ⟨0, false⟩).2.truncated
            then truncMarker else "")
        ∧ (renderFinal esc opts (sizeD (.elem tg idA cls kids)) (.elem tg idA cls kids) 0
            [selectorFor esc opts.toSelOpts ⟨tg, idA, cls, hp, pv⟩] none ⟨0, false⟩).2.truncated
          = decide (opts.maxNodes
              < (renderFinal esc opts (sizeD (.elem tg idA cls kids)) (.elem tg idA cls kids) 0
                  [selectorFor esc opts.toSelOpts ⟨tg, idA, cls, hp, pv⟩] none
                  ⟨0, false⟩).2.nodeCount))
    ∧ (∀ (esc : String → String) (opts : CssOpts) (fuel : Nat) (tg idA : String)
        (cls : List String) (kids : List DNode) (depth : Nat) (path : List String)
        (st : RState),
      depthExceeds depth opts.maxDepth = false → opts.maxNodes ≤ st.nodeCount →
      renderCanonical esc opts (fuel + 1) (.elem tg idA cls kids) depth path st
        = ("", ⟨st.nodeCount + 1, true⟩))
    ∧ (∀ (esc : String → String) (opts : CssOpts) (fuel : Nat) (tg idA : String)
        (cls : List String) (kids : List DNode) (depth : Nat) (path : List String)
        (st : RState),
      depthExceeds depth opts.maxDepth = false →
      st.nodeCount + 1
        ≤ (renderCanonical esc opts (fuel + 1) (.elem tg idA cls kids)
            depth path st).2.nodeCount) := by
  refine ⟨fun esc opts tg idA cls kids hp pv => ⟨rfl, ?_⟩,
    fun esc opts fuel tg idA cls kids depth path st hd hb => ?_,
    fun esc opts fuel tg idA cls kids depth path st hd => ?_⟩
  · exact renderFinal_inv esc opts _ _ _ _ _ _ (by simp)
  · rw [renderCanonical_elem]
    have hlt : opts.maxNodes < st.nodeCount + 1 := by omega
    simp only [hd, Bool.false_eq_true, if_false, hlt, if_true]
  · rw [renderCanonical_elem]
    simp only [hd, Bool.false_eq_true, if_false]
    by_cases hb : opts.maxNodes < st.nodeCount + 1
    · simp only [hb, if_true]
      exact Nat.le_refl _
    · simp only [hb, if_false]
      exact foldl_preserve
        (fun a : Nat × List String × RState × Bool =>
          st.nodeCount + 1 ≤ a.2.2.1.nodeCount)
        (canonStep esc opts fuel depth path)
        (by
          intro a b ha
          obtain ⟨idx, acc, stA, stop⟩ := a
          simp only [canonStep]
          by_cases hstop : stop
          · simp only [hstop, if_true]; exact ha
          · simp only [hstop, Bool.false_eq_true, if_false]
            cases b with
            | text s => exact ha
            | elem t i c ks =>
              by_cases hskip : opts.skipTags.contains t
              · simp only [hskip, if_true]; exact ha
              · simp only [hskip, Bool.false_eq_true, if_false]
                have hres := renderCanonical_mono esc opts fuel (.elem t i c ks)
                  (depth + 1)
                  (path ++ [selectorFor esc opts.toSelOpts ⟨t, i, c, true, idx⟩]) stA
                have htr := Nat.le_trans ha hres
                split
                · exact htr
                · split <;> exact htr)
        kids (0, [], ⟨st.nodeCount + 1, st.truncated⟩, false) (Nat.le_refl _)

/-- Witness for the amended C2: on the 4-node flat tree with
`maxNodes = 3` the final flag mirrors the counter (3 visits, no overrun),
and a canonical render past the budget short-circuits. -/
theorem c2_budget_witness :
    renderCanonical cssEscapeFallback
        { useIds := true, useClasses := true, includeTagIfNoClasses := true,
          includeNthChild := false, indent := "  ", maxDepth := none,
          maxNodes := 3, skipTags := ["SCRIPT", "STYLE", "TEMPLATE"] }
        (0 + 1) (.elem "A" "" [] []) 1 ["div", "a"] ⟨3, true⟩
      = ("", ⟨4, true⟩) :=
  c2_budget.2.1 cssEscapeFallback
    { useIds := true, useClasses := true, includeTagIfNoClasses := true,
      includeNthChild := false, indent := "  ", maxDepth := none,
      maxNodes := 3, skipTags := ["SCRIPT", "STYLE", "TEMPLATE"] }
    0 "A" "" [] [] 1 ["div", "a"] ⟨3, true⟩ rfl (by decide)

/-! ## Claim C1 — sibling grouping -/

/-- The distinct values of a list in first-occurrence order (the key
order of the grouping `Map` of src/main.js:634-645). -/
def firstOccurs (canon : List String) : List String :=
  canon.foldl (fun acc c => if c ∈ acc then acc else acc ++ [c]) []

/-- The positions at which `k` occurs in a list, in ascending order,
starting the numbering at `i`. -/
def occList (k : String) : List String → Nat → List Nat
  | [], _ => []
  | c :: rest, i =>
    if c = k then i :: occList k rest (i + 1) else occList k rest (i + 1)

theorem groupIndicesAux_append (l₁ l₂ : List String) :
    ∀ (i : Nat) (acc : List (String × List Nat)),
      groupIndicesAux (l₁ ++ l₂) i acc
        = groupIndicesAux l₂ (i + l₁.length) (groupIndicesAux l₁ i acc) := by
  induction l₁ with
  | nil => intro i acc; simp [groupIndicesAux]
  | cons c cs ih =>
    intro i acc
    simp only [List.cons_append, groupIndicesAux, List.length_cons, List.append_eq]
    rw [ih]
    have harith : i + 1 + cs.length = i + (cs.length + 1) := by omega
    rw [harith]

theorem groupIndices_append_singleton (xs : List String) (x : String) :
    groupIndices (xs ++ [x]) = pushIndex (groupIndices xs) x xs.length := by
  unfold groupIndices
  rw [groupIndicesAux_append]
  simp [groupIndicesAux]

theorem firstOccurs_append_singleton (xs : List String) (x : String) :
    firstOccurs (xs ++ [x])
      = if x ∈ firstOccurs xs then firstOccurs xs else firstOccurs xs ++ [x] := by
  unfold firstOccurs
  rw [List.foldl_append]
  rfl

theorem occList_append_singleton (k x : String) (xs : List String) :
    ∀ i, occList k (xs ++ [x]) i
      = occList k xs i ++ (if x = k then [i + xs.length] else []) := by
  induction xs with
  | nil => intro i; simp [occList]
  | cons c cs ih =>
    intro i
    simp only [List.cons_append, occList, List.length_cons, List.append_eq]
    rw [ih (i + 1)]
    have harith : i + 1 + cs.length = i + (cs.length + 1) := by omega
    rw [harith]
    by_cases hc : c = k
    · simp [hc]
    · simp [hc]

theorem occList_eq_nil_of_not_mem (x : String) (xs : List String) (hx : x ∉ xs) :
    ∀ i, occList x xs i = [] := by
  induction xs with
  | nil => intro i; rfl
  | cons c cs ih =>
    intro i
    have hc : c ≠ x := fun h => hx (h ▸ List.mem_cons_self c cs)
    have := ih (fun h => hx (List.mem_cons_of_mem c h))
    simp [occList, hc, this]

theorem mem_firstOccurs (l : List String) (x : String) :
    x ∈ firstOccurs l ↔ x ∈ l := by
  induction l using List.reverseRecOn with
  | nil => simp [firstOccurs]
  | append_singleton xs y ih =>
    rw [firstOccurs_append_singleton]
    by_cases hy : y ∈ firstOccurs xs
    · simp only [hy, if_true, List.mem_append, List.mem_singleton]
      constructor
      · intro h; exact Or.inl (ih.mp h)
      · intro h
        rcases h with h | h
        · exact ih.mpr h
        · exact h ▸ hy
    · simp only [hy, if_false, List.mem_append, List.mem_singleton]
      rw [ih]

theorem firstOccurs_nodup (l : List String) : (firstOccurs l).Nodup := by
  induction l using List.reverseRecOn with
  | nil => simp [firstOccurs]
  | append_singleton xs y ih =>
    rw [firstOccurs_append_singleton]
    by_cases hy : y ∈ firstOccurs xs
    · simp only [hy, if_true]; exact ih
    · simp only [hy, if_false]
      simp [List.nodup_append, ih, hy]

theorem pushIndex_map_mem (f : String → List Nat) (x : String) (n : Nat) :
    ∀ (ks : List String), ks.Nodup → x ∈ ks →
      pushIndex (ks.map fun k => (k, f k)) x n
        = ks.map fun k => (k, if k = x then f k ++ [n] else f k) := by
  intro ks
  induction ks with
  | nil => intro _ hx; exact absurd hx (List.not_mem_nil x)
  | cons k₀ ks' ih =>
    intro hnd hx
    simp only [List.map_cons, pushIndex]
    by_cases h0 : k₀ = x
    · simp only [h0, if_true]
      have hnotin : x ∉ ks' := by
        rw [← h0]
        exact (List.nodup_cons.mp hnd).1
      congr 1
      have : ∀ k ∈ ks', (fun k => (k, f k)) k
          = (fun k => (k, if k = x then f k ++ [n] else f k)) k := by
        intro k hk
        have : k ≠ x := fun he => hnotin (he ▸ hk)
        simp [this]
      exact List.map_congr_left this
    · simp only [h0, if_false]
      have hx' : x ∈ ks' := by
        rcases List.mem_cons.mp hx with h | h
        · exact absurd h.symm h0
        · exact h
      rw [ih (List.nodup_cons.mp hnd).2 hx']

theorem pushIndex_map_not_mem (f : String → List Nat) (x : String) (n : Nat) :
    ∀ (ks : List String), x ∉ ks →
      pushIndex (ks.map fun k => (k, f k)) x n
        = (ks.map fun k => (k, f k)) ++ [(x, [n])] := by
  intro ks
  induction ks with
  | nil => intro _; rfl
  | cons k₀ ks' ih =>
    intro hx
    have h0 : k₀ ≠ x := fun h => hx (h ▸ List.mem_cons_self k₀ ks')
    simp only [List.map_cons, pushIndex, h0, if_false, List.cons_append]
    rw [ih (fun h => hx (List.mem_cons_of_mem k₀ h))]

/-- The grouping `Map` of `renderFinal`, characterised: the groups are
exactly the distinct canonical strings in first-occurrence order, each
paired with the ascending list of all positions at which that canonical
string occurs. -/
theorem groupIndices_eq (canon : List String) :
    groupIndices canon = (firstOccurs canon).map fun k => (k, occList k canon 0) := by
  induction canon using List.reverseRecOn with
  | nil => rfl
  | append_singleton xs x ih =>
    rw [groupIndices_append_singleton, ih, firstOccurs_append_singleton]
    by_cases hx : x ∈ firstOccurs xs
    · rw [pushIndex_map_mem _ _ _ _ (firstOccurs_nodup xs) hx]
      simp only [hx, if_true]
      apply List.map_congr_left
      intro k hk
      rw [occList_append_singleton]
      by_cases hkx : k = x
      · simp [hkx]
      · have : x ≠ k := fun h => hkx h.symm
        simp [hkx, this]
    · rw [pushIndex_map_not_mem _ _ _ _ hx]
      simp only [hx, if_false, List.map_append, List.map_cons, List.map_nil]
      congr 1
      · apply List.map_congr_left
        intro k hk
        rw [occList_append_singleton]
        have hkm : k ∈ xs := (mem_firstOccurs xs k).mp hk
        have hxk : x ≠ k := by
          intro h
          exact hx ((mem_firstOccurs xs x).mpr (h ▸ hkm))
        simp [hxk]
      · rw [occList_append_singleton]
        have hxm : x ∉ xs := fun h => hx ((mem_firstOccurs xs x).mpr h)
        rw [occList_eq_nil_of_not_mem x xs hxm 0]
        simp

theorem strJoin_cons (a : String) (l : List String) :
    String.join (a :: l) = a ++ String.join l := by
  rw [String.join_eq, String.join_eq]
  apply String.ext
  simp [String.data_append]

/-- The group-emission loop, refined to the list of blocks it emits: one
block per group, in group order (this definition follows the wording of
the claim; `emitGroups_emits_blocks` proves it is what the render's fold
concatenates). -/
def emittedBlocks (esc : String → String) (opts : CssOpts) (fuel : Nat)
    (items : List (DNode × String)) :
    List (String × List Nat) → Nat → List String → RState → List String × RState
  | [], _, _, st => ([], st)
  | g :: gs, depth, path, st =>
    let count := g.2.length
    let item := items.getD (g.2.headD 0) (DNode.text "", "")
    let ot : Option (List String) :=
      if 1 < count then
        some (g.2.map fun idx =>
          primaryTextFor (childrenOf (items.getD idx (DNode.text "", "")).1))
      else none
    let cf := renderFinal esc opts fuel item.1 (depth + 1) (path ++ [item.2]) ot st
    let b := if 1 < count then annotateCount cf.1 count else cf.1
    let r := emittedBlocks esc opts fuel items gs depth path cf.2
    (b :: r.1, r.2)

theorem emitGroups_foldl_acc (esc : String → String) (opts : CssOpts) (fuel : Nat)
    (items : List (DNode × String)) (depth : Nat) (path : List String) :
    ∀ (groups : List (String × List Nat)) (s₀ : String) (st : RState),
      groups.foldl (emitStep esc opts fuel items depth path) (s₀, st)
        = (s₀ ++ String.join (emittedBlocks esc opts fuel items groups depth path st).1,
           (emittedBlocks esc opts fuel items groups depth path st).2) := by
  intro groups
  induction groups with
  | nil =>
    intro s₀ st
    simp [emittedBlocks, String.join]
  | cons g gs ih =>
    intro s₀ st
    simp only [List.foldl_cons]
    rw [show emitStep esc opts fuel items depth path (s₀, st) g
        = (s₀ ++ (if 1 < g.2.length
            then annotateCount (renderFinal esc opts fuel
              (items.getD (g.2.headD 0) (DNode.text "", "")).1 (depth + 1)
              (path ++ [(items.getD (g.2.headD 0) (DNode.text "", "")).2])
              (if 1 < g.2.length then
                some (g.2.map fun idx =>
                  primaryTextFor (childrenOf (items.getD idx (DNode.text "", "")).1))
               else none) st).1 g.2.length
            else (renderFinal esc opts fuel
              (items.getD (g.2.headD 0) (DNode.text "", "")).1 (depth + 1)
              (path ++ [(items.getD (g.2.headD 0) (DNode.text "", "")).2])
              (if 1 < g.2.length then
                some (g.2.map fun idx =>
                  primaryTextFor (childrenOf (items.getD idx (DNode.text "", "")).1))
               else none) st).1),
           (renderFinal esc opts fuel
              (items.getD (g.2.headD 0) (DNode.text "", "")).1 (depth + 1)
              (path ++ [(items.getD (g.2.headD 0) (DNode.text "", "")).2])
              (if 1 < g.2.length then
                some (g.2.map fun idx =>
                  primaryTextFor (childrenOf (items.getD idx (DNode.text "", "")).1))
               else none) st).2) from rfl]
    rw [ih]
    rw [show emittedBlocks esc opts fuel items (g :: gs) depth path st
        = (let count := g.2.length
           let item := items.getD (g.2.headD 0) (DNode.text "", "")
           let ot : Option (List String) :=
             if 1 < count then
               some (g.2.map fun idx =>
                 primaryTextFor (childrenOf (items.getD idx (DNode.text "", "")).1))
             else none
           let cf := renderFinal esc opts fuel item.1 (depth + 1) (path ++ [item.2]) ot st
           let b := if 1 < count then annotateCount cf.1 count else cf.1
           let r := emittedBlocks esc opts fuel items gs depth path cf.2
           (b :: r.1, r.2)) from rfl]
    simp only []
    rw [strJoin_cons, String.append_assoc]

theorem emittedBlocks_length (esc : String → String) (opts : CssOpts) (fuel : Nat)
    (items : List (DNode × String)) :
    ∀ (groups : List (String × List Nat)) (depth : Nat) (path : List String) (st : RState),
      (emittedBlocks esc opts fuel items groups depth path st).1.length
        = groups.length := by
  intro groups
  induction groups with
  | nil => intro depth path st; rfl
  | cons g gs ih =>
    intro depth path st
    simp only [emittedBlocks, List.length_cons]
    rw [ih]

theorem replaceFirstBrace_split (rep : String) :
    ∀ (l r : List Char), '\x7b' ∉ l →
      replaceFirstBrace (l ++ '\x7b' :: r) rep = l ++ rep.data ++ r := by
  intro l
  induction l with
  | nil => intro r _; simp [replaceFirstBrace]
  | cons c l' ih =>
    intro r h
    have hc : c ≠ '\x7b' := fun hc => h (hc ▸ List.mem_cons_self c l')
    simp only [List.cons_append, replaceFirstBrace, hc, if_false, List.append_assoc,
      List.append_eq]
    rw [ih r (fun hm => h (List.mem_cons_of_mem c hm))]
    simp

/-- Claim C1: (i) the grouping map sends a canonical-string list to one
group per distinct canonical string, in first-occurrence order, whose
member indices are exactly the ascending occurrence positions; (ii) the
emission loop emits exactly one block per group, in group order, and
concatenates them; (iii) the block of a group with `N > 1` members is the
final render of the group's *first* member fed the `N` member primary
texts (in original sibling order) as override texts, spliced with the
count marker; (iv) a final render with `N` non-empty override texts emits
exactly those `N` `content:` lines, one per text, in order; (v) the
marker splice rewrites the block's first brace to `\x7b /** N times */`,
leaving the rest of the block intact. -/
theorem c1_grouping :
    (∀ canon : List String,
      groupIndices canon = (firstOccurs canon).map fun k => (k, occList k canon 0))
    ∧ (∀ (esc : String → String) (opts : CssOpts) (fuel : Nat)
        (items : List (DNode × String)) (groups : List (String × List Nat))
        (depth : Nat) (path : List String) (st : RState),
      emitGroups esc opts fuel items groups depth path st
        = (String.join (emittedBlocks esc opts fuel items groups depth path st).1,
           (emittedBlocks esc opts fuel items groups depth path st).2)
        ∧ (emittedBlocks esc opts fuel items groups depth path st).1.length
          = groups.length)
    ∧ (∀ (esc : String → String) (opts : CssOpts) (fuel : Nat)
        (items : List (DNode × String)) (k : String) (idxs : List Nat)
        (gs : List (String × List Nat)) (depth : Nat) (path : List String)
        (st : RState),
      1 < idxs.length →
      (emittedBlocks esc opts fuel items ((k, idxs) :: gs) depth path st).1
        = annotateCount
            (renderFinal esc opts fuel
              (items.getD (idxs.headD 0) (DNode.text "", "")).1 (depth + 1)
              (path ++ [(items.getD (idxs.headD 0) (DNode.text "", "")).2])
              (some (idxs.map fun idx =>
                primaryTextFor (childrenOf (items.getD idx (DNode.text "", "")).1)))
              st).1
            idxs.length
          :: (emittedBlocks esc opts fuel items gs depth path
              (renderFinal esc opts fuel
                (items.getD (idxs.headD 0) (DNode.text "", "")).1 (depth + 1)
                (path ++ [(items.getD (idxs.headD 0) (DNode.text "", "")).2])
                (some (idxs.map fun idx =>
                  primaryTextFor (childrenOf (items.getD idx (DNode.text "", "")).1)))
                st).2).1)
    ∧ (∀ (esc : String → String) (opts : CssOpts) (fuel : Nat) (tg idA : String)
        (cls : List String) (kids : List DNode) (depth : Nat) (path : List String)
        (ts : List String) (st : RState),
      ts ≠ [] → depthExceeds depth opts.maxDepth = false →
      renderFinal esc opts (fuel + 1) (.elem tg idA cls kids) depth path (some ts) st
        = (blockOpen opts depth (path.getLastD "") ++ pathLines opts depth path
            ++ String.join (ts.map (mkContentLine opts depth))
            ++ (emitGroups esc opts fuel
                (prepChildren esc opts fuel kids depth path st).2.1
                (groupIndices (prepChildren esc opts fuel kids depth path st).1)
                depth path (prepChildren esc opts fuel kids depth path st).2.2).1
            ++ blockClose opts depth,
           (emitGroups esc opts fuel
              (prepChildren esc opts fuel kids depth path st).2.1
              (groupIndices (prepChildren esc opts fuel kids depth path st).1)
              depth path (prepChildren esc opts fuel kids depth path st).2.2).2))
    ∧ (∀ (l r : List Char) (count : Nat), '\x7b' ∉ l →
      annotateCount (String.mk (l ++ '\x7b' :: r)) count
        = String.mk (l ++ ("\x7b /** " ++ toString count ++ " times */").data ++ r)) := by
  refine ⟨groupIndices_eq, fun esc opts fuel items groups depth path st => ⟨?_, ?_⟩,
    fun esc opts fuel items k idxs gs depth path st hN => ?_,
    fun esc opts fuel tg idA cls kids depth path ts st hts hd => ?_,
    fun l r count hl => ?_⟩
  · rw [emitGroups_eq, emitGroups_foldl_acc]
    simp
  · exact emittedBlocks_length esc opts fuel items groups depth path st
  · simp only [emittedBlocks, hN, if_true]
  · rw [renderFinal_elem]
    simp only [hd, Bool.false_eq_true, if_false]
    have hne : ts.isEmpty = false := by
      cases ts with
      | nil => exact absurd rfl hts
      | cons a l => rfl
    simp only [hne, Bool.false_eq_true, if_false]
  · unfold annotateCount
    rw [show (String.mk (l ++ '\x7b' :: r)).data = l ++ '\x7b' :: r from rfl]
    rw [replaceFirstBrace_split _ l r hl]

/-- Witness for C1 at concrete inputs: the three-string list groups into
first-occurrence groups with ascending positions; a two-member group
emits one annotated block fed both members' primary texts; a render with
two override texts emits exactly those two `content:` lines; the marker
splice hits the block opener. -/
theorem c1_grouping_witness :
    groupIndices ["a", "b", "a"] = [("a", [0, 2]), ("b", [1])]
      ∧ (emittedBlocks cssEscapeFallback defaultCssOpts 1
          [(DNode.elem "LI" "" ["x"] [.text "General"], ".x"),
           (DNode.elem "LI" "" ["x"] [.text "Editor"], ".x")]
          [("K", [0, 1])] 0 ["ul"] ⟨0, false⟩).1
        = [annotateCount (renderFinal cssEscapeFallback defaultCssOpts 1
            (DNode.elem "LI" "" ["x"] [.text "General"]) 1 ["ul", ".x"]
            (some ["General", "Editor"]) ⟨0, false⟩).1 2]
      ∧ (renderFinal cssEscapeFallback defaultCssOpts 1
          (DNode.elem "LI" "" ["x"] []) 0 [".x"]
          (some ["General", "Editor"]) ⟨0, false⟩).1
        = ".x \x7b\n  content: \".x\";\n  content: \".x\";\n  content: \"General\";\n  content: \"Editor\";\n\x7d\n"
      ∧ annotateCount ".x \x7b\n" 6 = ".x \x7b /** 6 times */\n" := by
  refine ⟨(c1_grouping.1 ["a", "b", "a"]).trans (by decide), ?_, ?_, ?_⟩
  · have h := c1_grouping.2.2.1 cssEscapeFallback defaultCssOpts 1
      [(DNode.elem "LI" "" ["x"] [.text "General"], ".x"),
       (DNode.elem "LI" "" ["x"] [.text "Editor"], ".x")]
      "K" [0, 1] [] 0 ["ul"] ⟨0, false⟩ (by decide)
    exact h.trans (by decide)
  · have h := c1_grouping.2.2.2.1 cssEscapeFallback defaultCssOpts 0 "LI" "" ["x"]
      [] 0 [".x"] ["General", "Editor"] ⟨0, false⟩ (by decide) rfl
    exact (congrArg Prod.fst h).trans (by decide)
  · have h := c1_grouping.2.2.2.2 (".x ".data) ("\n".data) 6 (by decide)
    exact h.trans (by decide)

/-! ## Claim C10 — brace balance of the serialized output -/

/-- No brace character occurs in the list. -/
def braceFreeL (l : List Char) : Bool :=
  l.all fun c => !(c = '\x7b' || c = '\x7d')

/-- No brace character occurs in the string. -/
def braceFreeS (s : String) : Bool :=
  braceFreeL s.data

theorem braceFreeL_iff (l : List Char) :
    braceFreeL l = true ↔ ∀ c ∈ l, c ≠ '\x7b' ∧ c ≠ '\x7d' := by
  simp [braceFreeL, List.all_eq_true]

theorem braceFreeL_append (a b : List Char) :
    braceFreeL (a ++ b) = (braceFreeL a && braceFreeL b) := by
  simp [braceFreeL, List.all_append]

theorem braceFreeS_append (a b : String) :
    braceFreeS (a ++ b) = (braceFreeS a && braceFreeS b) := by
  show braceFreeL (a ++ b).data = _
  rw [String.data_append, braceFreeL_append]
  rfl

theorem char_toNat_ofNat_valid (m : Nat) (h : m.isValidChar) :
    (Char.ofNat m).toNat = m := by
  unfold Char.ofNat
  rw [dif_pos h]
  rfl

theorem toLower_ne_brace (c : Char) (h1 : c ≠ '\x7b') (h2 : c ≠ '\x7d') :
    Char.toLower c ≠ '\x7b' ∧ Char.toLower c ≠ '\x7d' := by
  unfold Char.toLower
  simp only []
  by_cases hc : c.toNat ≥ 65 ∧ c.toNat ≤ 90
  · rw [if_pos hc]
    have hv : (Char.toNat c + 32).isValidChar := Or.inl (by omega)
    have ht := char_toNat_ofNat_valid (Char.toNat c + 32) hv
    constructor <;> intro he <;> rw [he] at ht
    · have : (123 : Nat) = Char.toNat c + 32 := by
        simpa using ht.symm
      omega
    · have : (125 : Nat) = Char.toNat c + 32 := by
        simpa using ht.symm
      omega
  · rw [if_neg hc]
    exact ⟨h1, h2⟩

theorem braceFree_strToLower (s : String) (h : braceFreeS s = true) :
    braceFreeS (strToLower s) = true := by
  rw [braceFreeS, strToLower]
  rw [show (String.mk (s.data.map Char.toLower)).data = s.data.map Char.toLower from rfl]
  rw [braceFreeL_iff]
  intro c hc
  rcases List.mem_map.mp hc with ⟨c₀, hc₀, rfl⟩
  have := (braceFreeL_iff s.data).mp h c₀ hc₀
  exact toLower_ne_brace c₀ this.1 this.2

theorem digitChar_ne_brace (m : Nat) :
    Nat.digitChar m ≠ '\x7b' ∧ Nat.digitChar m ≠ '\x7d' := by
  by_cases hm : m < 16
  · interval_cases m <;> exact ⟨by decide, by decide⟩
  · have hstar : Nat.digitChar m = '*' := by
      unfold Nat.digitChar
      rw [if_neg (by omega : ¬ m = 0), if_neg (by omega : ¬ m = 1),
        if_neg (by omega : ¬ m = 2), if_neg (by omega : ¬ m = 3),
        if_neg (by omega : ¬ m = 4), if_neg (by omega : ¬ m = 5),
        if_neg (by omega : ¬ m = 6), if_neg (by omega : ¬ m = 7),
        if_neg (by omega : ¬ m = 8), if_neg (by omega : ¬ m = 9),
        if_neg (by omega : ¬ m = 10), if_neg (by omega : ¬ m = 11),
        if_neg (by omega : ¬ m = 12), if_neg (by omega : ¬ m = 13),
        if_neg (by omega : ¬ m = 14), if_neg (by omega : ¬ m = 15)]
    rw [hstar]
    exact ⟨by decide, by decide⟩

theorem toDigitsCore_mem (b : Nat) :
    ∀ (fuel n : Nat) (acc : List Char) (c : Char),
      c ∈ Nat.toDigitsCore b fuel n acc → (∃ m, c = Nat.digitChar m) ∨ c ∈ acc := by
  intro fuel
  induction fuel with
  | zero => intro n acc c hc; exact Or.inr hc
  | succ fuel ih =>
    intro n acc c hc
    unfold Nat.toDigitsCore at hc
    simp only [] at hc
    split at hc
    · rcases List.mem_cons.mp hc with h | h
      · exact Or.inl ⟨n % b, h⟩
      · exact Or.inr h
    · rcases ih (n / b) (Nat.digitChar (n % b) :: acc) c hc with h | h
      · exact Or.inl h
      · rcases List.mem_cons.mp h with h' | h'
        · exact Or.inl ⟨n % b, h'⟩
        · exact Or.inr h'

theorem braceFree_toDigits (b n : Nat) : braceFreeL (Nat.toDigits b n) = true := by
  rw [braceFreeL_iff]
  intro c hc
  rcases toDigitsCore_mem b (n + 1) n [] c hc with ⟨m, rfl⟩ | h
  · exact digitChar_ne_brace m
  · exact absurd h (List.not_mem_nil c)

theorem braceFree_toStringNat (n : Nat) : braceFreeS (toString n) = true := by
  show braceFreeL (Nat.toDigits 10 n) = true
  exact braceFree_toDigits 10 n

theorem ne_brace_of_isCssSafe (c : Char) (h : isCssSafe c = true) :
    c ≠ '\x7b' ∧ c ≠ '\x7d' := by
  constructor <;> intro he <;> subst he <;> exact absurd h (by decide)

theorem braceFree_escapeChar (c : Char) : braceFreeS (escapeChar c) = true := by
  unfold escapeChar
  by_cases hs : isCssSafe c = true
  · rw [if_pos hs]
    have := ne_brace_of_isCssSafe c hs
    show braceFreeL (String.singleton c).data = true
    rw [show (String.singleton c).data = [c] from rfl, braceFreeL_iff]
    intro d hd
    rw [List.mem_singleton.mp hd]
    exact this
  · rw [if_neg hs]
    rw [braceFreeS_append, braceFreeS_append]
    refine Bool.and_eq_true_iff.mpr ⟨Bool.and_eq_true_iff.mpr ⟨by decide, ?_⟩, by decide⟩
    show braceFreeL (Nat.toDigits 16 c.toNat) = true
    exact braceFree_toDigits 16 c.toNat

theorem braceFree_cssEscapeFallback (s : String) :
    braceFreeS (cssEscapeFallback s) = true := by
  unfold cssEscapeFallback
  rw [braceFreeS, String.join_eq]
  rw [show (String.mk ((s.data.map escapeChar).map String.data).flatten).data
      = ((s.data.map escapeChar).map String.data).flatten from rfl]
  rw [braceFreeL_iff]
  intro c hc
  rcases List.mem_flatten.mp hc with ⟨l, hl, hcl⟩
  rcases List.mem_map.mp hl with ⟨t, ht, rfl⟩
  rcases List.mem_map.mp ht with ⟨c₀, _, rfl⟩
  exact (braceFreeL_iff _).mp (braceFree_escapeChar c₀) c hcl

theorem braceFree_joinSep (sep : List Char) (hsep : braceFreeL sep = true) :
    ∀ (l : List (List Char)), (∀ x ∈ l, braceFreeL x = true) →
      braceFreeL (joinSep sep l) = true := by
  intro l
  induction l with
  | nil => intro _; rfl
  | cons a rest ih =>
    intro h
    cases rest with
    | nil => exact h a (List.mem_singleton_self a)
    | cons b bs =>
      rw [joinSep_cons_cons, braceFreeL_append, braceFreeL_append]
      refine Bool.and_eq_true_iff.mpr ⟨Bool.and_eq_true_iff.mpr
        ⟨h a (List.mem_cons_self a _), hsep⟩, ?_⟩
      exact ih fun x hx => h x (List.mem_cons_of_mem a hx)

theorem braceFree_intercalate (sep : String) (hsep : braceFreeS sep = true)
    (l : List String) (h : ∀ x ∈ l, braceFreeS x = true) :
    braceFreeS (String.intercalate sep l) = true := by
  rw [braceFreeS, intercalate_data]
  refine braceFree_joinSep sep.data hsep _ ?_
  intro x hx
  rcases List.mem_map.mp hx with ⟨t, ht, rfl⟩
  exact h t ht

theorem braceFree_selectorFor (esc : String → String) (opts : SelOpts) (n : Elem)
    (hesc : ∀ s, braceFreeS (esc s) = true) (htag : braceFreeS n.tag = true) :
    braceFreeS (selectorFor esc opts n) = true := by
  unfold selectorFor
  repeat' split
  all_goals
    first
    | (rw [braceFreeS_append]
       exact Bool.and_eq_true_iff.mpr ⟨by decide, hesc n.idAttr⟩)
    | (rw [braceFreeS_append]
       refine Bool.and_eq_true_iff.mpr ⟨by decide,
         braceFree_intercalate "." (by decide) _ ?_⟩
       intro x hx
       rcases List.mem_map.mp hx with ⟨t, _, rfl⟩
       exact hesc t)
    | (rw [braceFreeS_append, braceFreeS_append, braceFreeS_append]
       refine Bool.and_eq_true_iff.mpr ⟨Bool.and_eq_true_iff.mpr
         ⟨Bool.and_eq_true_iff.mpr ⟨?_, by decide⟩, braceFree_toStringNat _⟩,
         by decide⟩
       first
       | exact braceFree_strToLower n.tag htag
       | decide
       | (split
          · exact braceFree_strToLower n.tag htag
          · decide))
    | exact braceFree_strToLower n.tag htag
    | decide
    | (dsimp only
       split
       all_goals
         first
         | (rw [braceFreeS_append]
            refine Bool.and_eq_true_iff.mpr ⟨by decide,
              braceFree_intercalate "." (by decide) _ ?_⟩
            intro x hx
            first
            | (rcases List.mem_map.mp hx with ⟨t, _, rfl⟩
               exact hesc t)
            | exact absurd hx (List.not_mem_nil x))
         | (rw [braceFreeS_append, braceFreeS_append, braceFreeS_append]
            refine Bool.and_eq_true_iff.mpr ⟨Bool.and_eq_true_iff.mpr
              ⟨Bool.and_eq_true_iff.mpr ⟨?_, by decide⟩, braceFree_toStringNat _⟩,
              by decide⟩
            first
            | exact braceFree_strToLower n.tag htag
            | decide)
         | exact braceFree_strToLower n.tag htag
         | decide)

/-- Depth scanner of the brace structure, from starting depth `d`:
`none` when a closer appears at depth 0 (an ill-nested block), otherwise
the final depth. -/
def scanBr : Nat → List Char → Option Nat
  | d, [] => some d
  | d, c :: rest =>
    if c = '\x7b' then scanBr (d + 1) rest
    else if c = '\x7d' then
      match d with
      | 0 => none
      | d' + 1 => scanBr d' rest
    else scanBr d rest

/-- The output is brace-balanced: scanning from depth 0, every closer
matches an open block and the final depth is 0. -/
def balancedBraces (s : String) : Prop :=
  scanBr 0 s.data = some 0

theorem scanBr_append (a : List Char) :
    ∀ (b : List Char) (d : Nat),
      scanBr d (a ++ b) = (scanBr d a).bind fun d' => scanBr d' b := by
  induction a with
  | nil => intro b d; rfl
  | cons c rest ih =>
    intro b d
    by_cases h1 : c = '\x7b'
    · simp only [List.cons_append, scanBr, h1, if_true]
      exact ih b (d + 1)
    · by_cases h2 : c = '\x7d'
      · simp only [List.cons_append, scanBr, h1, if_false, h2, if_true]
        cases d with
        | zero => rfl
        | succ d' => exact ih b d'
      · simp only [List.cons_append, scanBr, h1, if_false, h2]
        exact ih b d

theorem scanBr_braceFree (a : List Char) (h : braceFreeL a = true) :
    ∀ d, scanBr d a = some d := by
  induction a with
  | nil => intro d; rfl
  | cons c rest ih =>
    intro d
    have hc := (braceFreeL_iff _).mp h c (List.mem_cons_self c rest)
    have hrest : braceFreeL rest = true := by
      rw [braceFreeL_iff]
      intro x hx
      exact (braceFreeL_iff _).mp h x (List.mem_cons_of_mem c hx)
    simp only [scanBr, hc.1, if_false, hc.2]
    exact ih hrest d

/-- A string is a *neutral segment* when scanning it from any depth
returns that depth: its braces are internally balanced and it never
closes an enclosing block. -/
def scanOkS (s : String) : Prop :=
  ∀ d, scanBr d s.data = some d

theorem scanOkS_append (a b : String) (ha : scanOkS a) (hb : scanOkS b) :
    scanOkS (a ++ b) := by
  intro d
  rw [String.data_append, scanBr_append, ha d]
  exact hb d

theorem scanOkS_of_braceFree (s : String) (h : braceFreeS s = true) : scanOkS s :=
  fun d => scanBr_braceFree s.data h d

theorem scanOkS_join (l : List String) (h : ∀ s ∈ l, scanOkS s) :
    scanOkS (String.join l) := by
  induction l with
  | nil => intro d; rfl
  | cons a rest ih =>
    rw [strJoin_cons]
    exact scanOkS_append a _ (h a (List.mem_cons_self a rest))
      (ih fun s hs => h s (List.mem_cons_of_mem a hs))

/-- A block whose opener line, inner segment and closer indentation are
well-formed is itself a neutral segment. -/
theorem scanOkS_block (pre mid ind2 : String)
    (hpre : braceFreeS pre = true) (hmid : scanOkS mid)
    (hind : braceFreeS ind2 = true) :
    scanOkS (pre ++ " \x7b\n" ++ mid ++ (ind2 ++ "\x7d\n")) := by
  have hA : ∀ d, scanBr d (" \x7b\n" : String).data = some (d + 1) := by
    intro d
    rw [show (" \x7b\n" : String).data = [' ', '\x7b', '\n'] from rfl]
    simp [scanBr]
  have hB : ∀ d, scanBr (d + 1) ("\x7d\n" : String).data = some d := by
    intro d
    rw [show ("\x7d\n" : String).data = ['\x7d', '\n'] from rfl]
    simp [scanBr]
  intro d
  simp only [String.data_append, scanBr_append]
  rw [scanBr_braceFree pre.data hpre d]
  simp only [Option.some_bind]
  rw [hA d]
  simp only [Option.some_bind]
  rw [hmid (d + 1)]
  simp only [Option.some_bind]
  rw [scanBr_braceFree ind2.data hind (d + 1)]
  simp only [Option.some_bind]
  exact hB d

/-- Splicing brace-free text after the first brace preserves the scan. -/
theorem scanBr_replaceFirstBrace (rep : String)
    (hrep : ∃ tail, rep.data = '\x7b' :: tail ∧ braceFreeL tail = true) :
    ∀ (l : List Char) (d : Nat), scanBr d (replaceFirstBrace l rep) = scanBr d l := by
  intro l
  induction l with
  | nil => intro d; rfl
  | cons c rest ih =>
    intro d
    by_cases h1 : c = '\x7b'
    · simp only [replaceFirstBrace, h1, if_true]
      rcases hrep with ⟨tail, hdata, htail⟩
      rw [hdata]
      simp only [scanBr, List.cons_append, if_true]
      simp only [List.append_eq]
      rw [scanBr_append, scanBr_braceFree tail htail (d + 1)]
      rfl
    · simp only [replaceFirstBrace, h1, if_false]
      by_cases h2 : c = '\x7d'
      · simp only [scanBr, h1, if_false, h2, if_true]
        cases d with
        | zero => rfl
        | succ d' => exact ih d'
      · simp only [scanBr, h1, if_false, h2]
        exact ih d

/-- The count marker's splice text: a brace followed by brace-free
text. -/
theorem annotateCount_scan (s : String) (count : Nat) (d : Nat) :
    scanBr d (annotateCount s count).data = scanBr d s.data := by
  unfold annotateCount
  rw [show (String.mk (replaceFirstBrace s.data
      ("\x7b /** " ++ toString count ++ " times */"))).data
    = replaceFirstBrace s.data ("\x7b /** " ++ toString count ++ " times */") from rfl]
  refine scanBr_replaceFirstBrace _ ⟨(" /** " ++ toString count ++ " times */").data, ?_, ?_⟩ s.data d
  · rw [String.data_append, String.data_append, String.data_append]
    rfl
  · rw [String.data_append]
    rw [braceFreeL_append]
    refine Bool.and_eq_true_iff.mpr ⟨?_, by decide⟩
    rw [show (" /** " ++ toString count).data = (" /** " : String).data ++ (toString count).data from String.data_append _ _]
    rw [braceFreeL_append]
    exact Bool.and_eq_true_iff.mpr ⟨by decide, braceFree_toStringNat count⟩

theorem braceFree_collapseWs (l : List Char) (h : braceFreeL l = true) :
    braceFreeL (collapseWs l) = true := by
  induction l with
  | nil => rfl
  | cons c rest ih =>
    have hc := (braceFreeL_iff _).mp h c (List.mem_cons_self c rest)
    have hrest : braceFreeL rest = true := by
      rw [braceFreeL_iff]
      exact fun x hx => (braceFreeL_iff _).mp h x (List.mem_cons_of_mem c hx)
    cases rest with
    | nil =>
      show braceFreeL (if jsIsSpace c then [' '] else [c]) = true
      split <;> (rw [braceFreeL_iff]; intro x hx; rw [List.mem_singleton.mp hx])
      · exact ⟨by decide, by decide⟩
      · exact hc
    | cons d rest' =>
      show braceFreeL (if jsIsSpace c && jsIsSpace d then collapseWs (d :: rest')
        else (if jsIsSpace c then ' ' else c) :: collapseWs (d :: rest')) = true
      have hcol := ih hrest
      split
      · exact hcol
      · rw [braceFreeL_iff]
        intro x hx
        rcases List.mem_cons.mp hx with hx | hx
        · subst hx
          split
          · exact ⟨by decide, by decide⟩
          · exact hc
        · exact (braceFreeL_iff _).mp hcol x hx

theorem braceFree_jsTrim (l : List Char) (h : braceFreeL l = true) :
    braceFreeL (jsTrim l) = true := by
  rw [braceFreeL_iff]
  intro c hc
  unfold jsTrim at hc
  rw [List.mem_reverse] at hc
  have hc2 := (List.dropWhile_sublist jsIsSpace).mem hc
  rw [List.mem_reverse] at hc2
  have hc3 := (List.dropWhile_sublist jsIsSpace).mem hc2
  exact (braceFreeL_iff _).mp h c hc3

theorem braceFree_jsTruncate50 (l : List Char) (h : braceFreeL l = true) :
    braceFreeL (jsTruncate50 l) = true := by
  rw [braceFreeL_iff]
  intro c hc
  unfold jsTruncate50 at hc
  split at hc
  · rcases List.mem_append.mp hc with hc | hc
    · exact (braceFreeL_iff _).mp h c ((List.take_sublist 47 l).mem hc)
    · have hdot : c = '.' := by simpa using hc
      rw [hdot]
      exact ⟨by decide, by decide⟩
  · exact (braceFreeL_iff _).mp h c hc

theorem braceFree_escTextChar (c₀ : Char) (h : c₀ ≠ '\x7b' ∧ c₀ ≠ '\x7d') :
    braceFreeL (escTextChar c₀) = true := by
  unfold escTextChar
  split
  · decide
  · split
    · decide
    · rw [braceFreeL_iff]
      intro x hx
      rw [List.mem_singleton.mp hx]
      exact h

theorem braceFree_textProcess (s t : String) (h : braceFreeS s = true)
    (ht : textProcess s = some t) : braceFreeS t = true := by
  have ht' : (if (jsTrim (collapseWs s.data)).isEmpty = true then none
      else some (String.mk
        ((jsTruncate50 (jsTrim (collapseWs s.data))).map escTextChar).flatten)) = some t := ht
  split at ht'
  · exact absurd ht' (by simp)
  · have hdata : t = String.mk ((jsTruncate50 (jsTrim (collapseWs s.data))).map escTextChar).flatten := by
      injection ht' with h'
      exact h'.symm
    subst hdata
    show braceFreeL ((jsTruncate50 (jsTrim (collapseWs s.data))).map escTextChar).flatten = true
    rw [braceFreeL_iff]
    intro c hc
    rcases List.mem_flatten.mp hc with ⟨seg, hseg, hcseg⟩
    rcases List.mem_map.mp hseg with ⟨c₀, hc₀, rfl⟩
    have hbase : braceFreeL (jsTruncate50 (jsTrim (collapseWs s.data))) = true :=
      braceFree_jsTruncate50 _ (braceFree_jsTrim _ (braceFree_collapseWs _ h))
    exact (braceFreeL_iff _).mp
      (braceFree_escTextChar c₀ ((braceFreeL_iff _).mp hbase c₀ hc₀)) c hcseg

/-- A tree all of whose tag names and text values are brace-free: outside
this class, braces inside text or tag data flow verbatim into the output
and break the balance (see `c10_brace_balance_cex`). -/
inductive BraceFreeTree : DNode → Prop
  | text (s : String) : braceFreeS s = true → BraceFreeTree (.text s)
  | elem (tg idA : String) (cls : List String) (kids : List DNode) :
      braceFreeS tg = true → (∀ c ∈ kids, BraceFreeTree c) →
      BraceFreeTree (.elem tg idA cls kids)

theorem BraceFreeTree.tag_of_elem {tg idA : String} {cls : List String}
    {kids : List DNode} (h : BraceFreeTree (.elem tg idA cls kids)) :
    braceFreeS tg = true := by
  cases h with
  | elem _ _ _ _ htg _ => exact htg

theorem BraceFreeTree.kids_of_elem {tg idA : String} {cls : List String}
    {kids : List DNode} (h : BraceFreeTree (.elem tg idA cls kids)) :
    ∀ c ∈ kids, BraceFreeTree c := by
  cases h with
  | elem _ _ _ _ _ hk => exact hk

theorem braceFree_textContentsFor (kids : List DNode)
    (h : ∀ c ∈ kids, BraceFreeTree c) :
    ∀ t ∈ textContentsFor kids, braceFreeS t = true := by
  intro t ht
  unfold textContentsFor at ht
  rcases List.mem_filterMap.mp ht with ⟨node, hnode, hmap⟩
  cases node with
  | elem _ _ _ _ => exact absurd hmap (by simp)
  | text s =>
    have hs : braceFreeS s = true := by
      cases h (.text s) hnode with
      | text _ hfree => exact hfree
    exact braceFree_textProcess s t hs hmap

theorem braceFree_primaryTextFor (kids : List DNode)
    (h : ∀ c ∈ kids, BraceFreeTree c) :
    braceFreeS (primaryTextFor kids) = true := by
  induction kids with
  | nil => rfl
  | cons node rest ih =>
    have hrest := ih fun c hc => h c (List.mem_cons_of_mem node hc)
    cases node with
    | elem tg idA cls ks =>
      show braceFreeS (primaryTextFor rest) = true
      exact hrest
    | text s =>
      show braceFreeS (match textProcess s with
        | some t => t
        | none => primaryTextFor rest) = true
      have hs : braceFreeS s = true := by
        cases h (.text s) (List.mem_cons_self _ _) with
        | text _ hfree => exact hfree
      cases hp : textProcess s with
      | none => exact hrest
      | some t => exact braceFree_textProcess s t hs hp

theorem foldl_preserve_mem {α β : Type} (P : α → Prop) (f : α → β → α)
    (l : List β) (h : ∀ a b, b ∈ l → P a → P (f a b)) :
    ∀ a, P a → P (l.foldl f a) := by
  induction l with
  | nil => intro a ha; exact ha
  | cons b bs ih =>
    intro a ha
    exact ih (fun a' b' hb' ha' => h a' b' (List.mem_cons_of_mem _ hb') ha')
      (f a b) (h a b (List.mem_cons_self _ _) ha)

theorem braceFree_strRepeat (s : String) (h : braceFreeS s = true) :
    ∀ n, braceFreeS (strRepeat s n) = true := by
  intro n
  induction n with
  | zero => rfl
  | succ n ih =>
    show braceFreeS (strRepeat s n ++ s) = true
    rw [braceFreeS_append]
    exact Bool.and_eq_true_iff.mpr ⟨ih, h⟩

theorem braceFree_mkContentLine (opts : CssOpts) (depth : Nat) (s : String)
    (hind : braceFreeS opts.indent = true) (hs : braceFreeS s = true) :
    braceFreeS (mkContentLine opts depth s) = true := by
  unfold mkContentLine
  rw [braceFreeS_append, braceFreeS_append, braceFreeS_append]
  exact Bool.and_eq_true_iff.mpr ⟨Bool.and_eq_true_iff.mpr
    ⟨Bool.and_eq_true_iff.mpr ⟨braceFree_strRepeat opts.indent hind _, by decide⟩, hs⟩,
    by decide⟩

theorem braceFree_pathLines (opts : CssOpts) (depth : Nat) (path : List String)
    (hind : braceFreeS opts.indent = true)
    (hpath : ∀ tok ∈ path, braceFreeS tok = true) :
    braceFreeS (pathLines opts depth path) = true := by
  unfold pathLines
  rw [braceFreeS_append]
  refine Bool.and_eq_true_iff.mpr ⟨?_, ?_⟩ <;>
    exact braceFree_mkContentLine opts depth _ hind
      (braceFree_intercalate _ (by decide) path hpath)

theorem braceFree_getLastD (path : List String)
    (hpath : ∀ tok ∈ path, braceFreeS tok = true) :
    braceFreeS (path.getLastD "") = true := by
  induction path with
  | nil => rfl
  | cons tok rest ih =>
    cases rest with
    | nil => exact hpath tok (List.mem_cons_self _ _)
    | cons b bs =>
      show braceFreeS ((b :: bs).getLastD tok) = true
      rw [List.getLastD_cons]
      have := ih fun t ht => hpath t (List.mem_cons_of_mem tok ht)
      rw [List.getLastD_cons] at this
      exact this

theorem childrenOf_tree (n : DNode) (h : BraceFreeTree n) :
    ∀ c ∈ childrenOf n, BraceFreeTree c := by
  cases n with
  | text s => intro c hc; exact absurd hc (List.not_mem_nil c)
  | elem tg idA cls kids => exact h.kids_of_elem

theorem braceFree_primary_of_tree (n : DNode) (h : BraceFreeTree n) :
    braceFreeS (primaryTextFor (childrenOf n)) = true :=
  braceFree_primaryTextFor (childrenOf n) (childrenOf_tree n h)

theorem prepChildren_items (esc : String → String) (opts : CssOpts) (fuel : Nat)
    (kids : List DNode) (depth : Nat) (path : List String) (st : RState)
    (hesc : ∀ s, braceFreeS (esc s) = true)
    (hkids : ∀ c ∈ kids, BraceFreeTree c) :
    ∀ x ∈ (prepChildren esc opts fuel kids depth path st).2.1,
      BraceFreeTree x.1 ∧ braceFreeS x.2 = true := by
  rw [prepChildren_eq]
  simp only []
  refine foldl_preserve_mem
    (fun a : Nat × List String × List (DNode × String) × RState × Bool =>
      ∀ x ∈ a.2.2.1, BraceFreeTree x.1 ∧ braceFreeS x.2 = true)
    (prepStep esc opts fuel depth path) kids ?_ (0, [], [], st, false)
    (fun x hx => absurd hx (List.not_mem_nil x))
  intro a b hb ha
  obtain ⟨idx, canonAcc, itemsAcc, stA, stop⟩ := a
  simp only [prepStep]
  by_cases hstop : stop
  · simp only [hstop, if_true]; exact ha
  · simp only [hstop, Bool.false_eq_true, if_false]
    cases b with
    | text s => exact ha
    | elem t i c ks =>
      by_cases hskip : opts.skipTags.contains t
      · simp only [hskip, if_true]; exact ha
      · simp only [hskip, Bool.false_eq_true, if_false]
        have htree : BraceFreeTree (.elem t i c ks) := hkids _ hb
        have hsel : braceFreeS (selectorFor esc opts.toSelOpts ⟨t, i, c, true, idx⟩) = true :=
          braceFree_selectorFor esc opts.toSelOpts ⟨t, i, c, true, idx⟩ hesc htree.tag_of_elem
        split
        · exact ha
        · split
          · exact ha
          · intro x hx
            rcases List.mem_append.mp hx with hx | hx
            · exact ha x hx
            · rw [List.mem_singleton.mp hx]
              exact ⟨htree, hsel⟩

theorem items_getD_ok (items : List (DNode × String))
    (h : ∀ x ∈ items, BraceFreeTree x.1 ∧ braceFreeS x.2 = true) (idx : Nat) :
    BraceFreeTree (items.getD idx (DNode.text "", "")).1
      ∧ braceFreeS (items.getD idx (DNode.text "", "")).2 = true := by
  by_cases hlt : idx < items.length
  · rw [List.getD_eq_getElem items _ hlt]
    exact h _ (items.getElem_mem hlt)
  · rw [List.getD_eq_default items _ (Nat.le_of_not_lt hlt)]
    exact ⟨BraceFreeTree.text "" rfl, rfl⟩

/-- Scanning neutrality of both renders: with brace-free escaping, indent,
tags and texts, every rendered block is internally balanced and never
closes an enclosing block. -/
theorem render_scanOk (esc : String → String) (opts : CssOpts)
    (hesc : ∀ s, braceFreeS (esc s) = true)
    (hind : braceFreeS opts.indent = true) :
    ∀ fuel : Nat,
      (∀ (node : DNode) (depth : Nat) (path : List String) (st : RState),
        BraceFreeTree node → (∀ tok ∈ path, braceFreeS tok = true) →
        scanOkS (renderCanonical esc opts fuel node depth path st).1)
      ∧ (∀ (node : DNode) (depth : Nat) (path : List String)
          (ot : Option (List String)) (st : RState),
        BraceFreeTree node → (∀ tok ∈ path, braceFreeS tok = true) →
        (∀ l, ot = some l → ∀ s ∈ l, braceFreeS s = true) →
        scanOkS (renderFinal esc opts fuel node depth path ot st).1) := by
  intro fuel
  induction fuel with
  | zero =>
    constructor
    · intro node depth path st _ _ d; rfl
    · intro node depth path ot st _ _ _ d; rfl
  | succ fuel ih =>
    constructor
    · intro node depth path st htree hpath
      cases node with
      | text s => intro d; rfl
      | elem tg idA cls kids =>
        rw [renderCanonical_elem]
        by_cases hd : depthExceeds depth opts.maxDepth
        · simp only [hd, if_true]; intro d; rfl
        · simp only [hd, Bool.false_eq_true, if_false]
          by_cases hb : opts.maxNodes < st.nodeCount + 1
          · simp only [hb, if_true]; intro d; rfl
          · simp only [hb, if_false]
            have hct : ∀ s ∈ (kids.foldl (canonStep esc opts fuel depth path)
                (0, [], ⟨st.nodeCount + 1, st.truncated⟩, false)).2.1, scanOkS s := by
              refine foldl_preserve_mem
                (fun a : Nat × List String × RState × Bool => ∀ s ∈ a.2.1, scanOkS s)
                (canonStep esc opts fuel depth path) kids ?_
                (0, [], ⟨st.nodeCount + 1, st.truncated⟩, false)
                (fun s hs => absurd hs (List.not_mem_nil s))
              intro a b hbmem ha
              obtain ⟨idx, acc, stA, stop⟩ := a
              simp only [canonStep]
              by_cases hstop : stop
              · simp only [hstop, if_true]; exact ha
              · simp only [hstop, Bool.false_eq_true, if_false]
                cases b with
                | text s => exact ha
                | elem t i c ks =>
                  by_cases hskip : opts.skipTags.contains t
                  · simp only [hskip, if_true]; exact ha
                  · simp only [hskip, Bool.false_eq_true, if_false]
                    have htreeb : BraceFreeTree (.elem t i c ks) :=
                      htree.kids_of_elem _ hbmem
                    have hselb : braceFreeS
                        (selectorFor esc opts.toSelOpts ⟨t, i, c, true, idx⟩) = true :=
                      braceFree_selectorFor esc opts.toSelOpts _ hesc htreeb.tag_of_elem
                    have hrec := (ih).1 (.elem t i c ks) (depth + 1)
                      (path ++ [selectorFor esc opts.toSelOpts ⟨t, i, c, true, idx⟩]) stA
                      htreeb
                      (by
                        intro tok htok
                        rcases List.mem_append.mp htok with htok | htok
                        · exact hpath tok htok
                        · rw [List.mem_singleton.mp htok]
                          exact hselb)
                    split
                    · exact ha
                    · split
                      · exact ha
                      · intro s hs
                        rcases List.mem_append.mp hs with hs | hs
                        · exact ha s hs
                        · rw [List.mem_singleton.mp hs]
                          exact hrec
            have hpre : braceFreeS (strRepeat opts.indent depth ++ path.getLastD "") = true := by
              rw [braceFreeS_append]
              exact Bool.and_eq_true_iff.mpr
                ⟨braceFree_strRepeat opts.indent hind depth, braceFree_getLastD path hpath⟩
            have hmid : scanOkS (pathLines opts depth path ++ String.join
                (kids.foldl (canonStep esc opts fuel depth path)
                  (0, [], ⟨st.nodeCount + 1, st.truncated⟩, false)).2.1) :=
              scanOkS_append _ _
                (scanOkS_of_braceFree _ (braceFree_pathLines opts depth path hind hpath))
                (scanOkS_join _ hct)
            have hshape : blockOpen opts depth (path.getLastD "") ++ pathLines opts depth path
                ++ String.join (kids.foldl (canonStep esc opts fuel depth path)
                  (0, [], ⟨st.nodeCount + 1, st.truncated⟩, false)).2.1
                ++ blockClose opts depth
              = (strRepeat opts.indent depth ++ path.getLastD "") ++ " \x7b\n"
                ++ (pathLines opts depth path ++ String.join
                  (kids.foldl (canonStep esc opts fuel depth path)
                    (0, [], ⟨st.nodeCount + 1, st.truncated⟩, false)).2.1)
                ++ (strRepeat opts.indent depth ++ "\x7d\n") := by
              unfold blockOpen blockClose
              simp [String.append_assoc]
            rw [hshape]
            exact scanOkS_block _ _ _ hpre hmid
              (braceFree_strRepeat opts.indent hind depth)
    · intro node depth path ot st htree hpath hot
      cases node with
      | text s => intro d; rfl
      | elem tg idA cls kids =>
        rw [renderFinal_elem]
        by_cases hd : depthExceeds depth opts.maxDepth
        · simp only [hd, if_true]; intro d; rfl
        · simp only [hd, Bool.false_eq_true, if_false]
          have hitems := prepChildren_items esc opts fuel kids depth path st hesc
            htree.kids_of_elem
          have htexts : ∀ t ∈ (match ot with
              | some l => if l.isEmpty then textContentsFor kids else l
              | none => textContentsFor kids), braceFreeS t = true := by
            cases ot with
            | none => exact braceFree_textContentsFor kids htree.kids_of_elem
            | some l =>
              by_cases hle : l.isEmpty
              · simp only [hle, if_true]
                exact braceFree_textContentsFor kids htree.kids_of_elem
              · simp only [hle, Bool.false_eq_true, if_false]
                exact hot l rfl
          have htl : braceFreeS (if (match ot with
              | some l => if l.isEmpty then textContentsFor kids else l
              | none => textContentsFor kids).isEmpty
            then mkContentLine opts depth ""
            else String.join ((match ot with
              | some l => if l.isEmpty then textContentsFor kids else l
              | none => textContentsFor kids).map (mkContentLine opts depth))) = true := by
            split
            · exact braceFree_mkContentLine opts depth "" hind rfl
            · rw [braceFreeS, String.join_eq, braceFreeL_iff]
              intro c hc
              rcases List.mem_flatten.mp hc with ⟨seg, hseg, hcseg⟩
              rcases List.mem_map.mp hseg with ⟨u, hu, rfl⟩
              rcases List.mem_map.mp hu with ⟨v, hv, rfl⟩
              exact (braceFreeL_iff _).mp
                (braceFree_mkContentLine opts depth v hind (htexts v hv)) c hcseg
          have heg : scanOkS (emitGroups esc opts fuel
              (prepChildren esc opts fuel kids depth path st).2.1
              (groupIndices (prepChildren esc opts fuel kids depth path st).1)
              depth path (prepChildren esc opts fuel kids depth path st).2.2).1 := by
            rw [emitGroups_eq]
            refine foldl_preserve_mem (fun a : String × RState => scanOkS a.1)
              (emitStep esc opts fuel (prepChildren esc opts fuel kids depth path st).2.1
                depth path)
              (groupIndices (prepChildren esc opts fuel kids depth path st).1) ?_
              ("", (prepChildren esc opts fuel kids depth path st).2.2)
              (fun d => rfl)
            intro a g _ ha
            simp only [emitStep]
            have hitem := items_getD_ok _ hitems (g.2.headD 0)
            have hpathext : ∀ tok ∈ path
                ++ [((prepChildren esc opts fuel kids depth path st).2.1.getD
                  (g.2.headD 0) (DNode.text "", "")).2], braceFreeS tok = true := by
              intro tok htok
              rcases List.mem_append.mp htok with htok | htok
              · exact hpath tok htok
              · rw [List.mem_singleton.mp htok]
                exact hitem.2
            by_cases hcnt : 1 < g.2.length
            · simp only [hcnt, if_true]
              have hcf := (ih).2
                ((prepChildren esc opts fuel kids depth path st).2.1.getD (g.2.headD 0)
                  (DNode.text "", "")).1
                (depth + 1)
                (path ++ [((prepChildren esc opts fuel kids depth path st).2.1.getD
                  (g.2.headD 0) (DNode.text "", "")).2])
                (some (g.2.map fun idx => primaryTextFor (childrenOf
                  (((prepChildren esc opts fuel kids depth path st).2.1.getD idx
                    (DNode.text "", "")).1))))
                a.2 hitem.1 hpathext
                (by
                  intro l hl s hs
                  injection hl with hl
                  subst hl
                  rcases List.mem_map.mp hs with ⟨idx, _, rfl⟩
                  exact braceFree_primary_of_tree _ (items_getD_ok _ hitems idx).1)
              refine scanOkS_append _ _ ha ?_
              intro d
              rw [annotateCount_scan]
              exact hcf d
            · simp only [hcnt, if_false]
              have hcf := (ih).2
                ((prepChildren esc opts fuel kids depth path st).2.1.getD (g.2.headD 0)
                  (DNode.text "", "")).1
                (depth + 1)
                (path ++ [((prepChildren esc opts fuel kids depth path st).2.1.getD
                  (g.2.headD 0) (DNode.text "", "")).2])
                none a.2 hitem.1 hpathext
                (fun l hl => absurd hl (by simp))
              exact scanOkS_append _ _ ha hcf
          have hpre : braceFreeS (strRepeat opts.indent depth ++ path.getLastD "") = true := by
            rw [braceFreeS_append]
            exact Bool.and_eq_true_iff.mpr
              ⟨braceFree_strRepeat opts.indent hind depth, braceFree_getLastD path hpath⟩
          have hmid : scanOkS (pathLines opts depth path
              ++ (if (match ot with
                | some l => if l.isEmpty then textContentsFor kids else l
                | none => textContentsFor kids).isEmpty
                then mkContentLine opts depth ""
                else String.join ((match ot with
                  | some l => if l.isEmpty then textContentsFor kids else l
                  | none => textContentsFor kids).map (mkContentLine opts depth)))
              ++ (emitGroups esc opts fuel
                (prepChildren esc opts fuel kids depth path st).2.1
                (groupIndices (prepChildren esc opts fuel kids depth path st).1)
                depth path (prepChildren esc opts fuel kids depth path st).2.2).1) := by
            refine scanOkS_append _ _ (scanOkS_append _ _ ?_ ?_) heg
            · exact scanOkS_of_braceFree _ (braceFree_pathLines opts depth path hind hpath)
            · exact scanOkS_of_braceFree _ htl
          have hshape : blockOpen opts depth (path.getLastD "") ++ pathLines opts depth path
              ++ (if (match ot with
                | some l => if l.isEmpty then textContentsFor kids else l
                | none => textContentsFor kids).isEmpty
                then mkContentLine opts depth ""
                else String.join ((match ot with
                  | some l => if l.isEmpty then textContentsFor kids else l
                  | none => textContentsFor kids).map (mkContentLine opts depth)))
              ++ (emitGroups esc opts fuel
                (prepChildren esc opts fuel kids depth path st).2.1
                (groupIndices (prepChildren esc opts fuel kids depth path st).1)
                depth path (prepChildren esc opts fuel kids depth path st).2.2).1
              ++ blockClose opts depth
            = (strRepeat opts.indent depth ++ path.getLastD "") ++ " \x7b\n"
              ++ (pathLines opts depth path
                ++ (if (match ot with
                  | some l => if l.isEmpty then textContentsFor kids else l
                  | none => textContentsFor kids).isEmpty
                  then mkContentLine opts depth ""
                  else String.join ((match ot with
                    | some l => if l.isEmpty then textContentsFor kids else l
                    | none => textContentsFor kids).map (mkContentLine opts depth)))
                ++ (emitGroups esc opts fuel
                  (prepChildren esc opts fuel kids depth path st).2.1
                  (groupIndices (prepChildren esc opts fuel kids depth path st).1)
                  depth path (prepChildren esc opts fuel kids depth path st).2.2).1)
              ++ (strRepeat opts.indent depth ++ "\x7d\n") := by
            unfold blockOpen blockClose
            simp [String.append_assoc]
          rw [hshape]
          exact scanOkS_block _ _ _ hpre hmid
            (braceFree_strRepeat opts.indent hind depth)

/-- Claim C10, counterexample: a text child containing a brace flows
verbatim into a `content:` line, so the output has two opening braces but
one closing brace and is not balanced. -/
theorem c10_brace_balance_cex :
    ¬ balancedBraces (cssMain cssEscapeFallback defaultCssOpts
        (some (.elem "DIV" "" [] [.text "\x7b"])) false 0).1 := by
  unfold balancedBraces
  decide

/-- Claim C10 as amended: for every element root whose tag names and text
values are brace-free, every brace-free indent string and every
brace-free-output escaper (the fallback escaper is one,
`braceFree_cssEscapeFallback`), the serialized output is brace-balanced:
read left to right, every closer matches an open block and the final
depth is zero; the occurrence-count splice preserves this
(`annotateCount_scan`). -/
theorem c10_brace_balance (esc : String → String) (opts : CssOpts)
    (tg idA : String) (cls : List String) (kids : List DNode) (hp : Bool) (pv : Nat)
    (hesc : ∀ s, braceFreeS (esc s) = true)
    (hind : braceFreeS opts.indent = true)
    (htree : BraceFreeTree (.elem tg idA cls kids)) :
    balancedBraces (cssMain esc opts (some (.elem tg idA cls kids)) hp pv).1 := by
  have hsel : braceFreeS (selectorFor esc opts.toSelOpts ⟨tg, idA, cls, hp, pv⟩) = true :=
    braceFree_selectorFor esc opts.toSelOpts _ hesc htree.tag_of_elem
  have hr := (render_scanOk esc opts hesc hind (sizeD (.elem tg idA cls kids))).2
    (.elem tg idA cls kids) 0 [selectorFor esc opts.toSelOpts ⟨tg, idA, cls, hp, pv⟩]
    none ⟨0, false⟩ htree
    (by
      intro tok htok
      rw [List.mem_singleton.mp htok]
      exact hsel)
    (fun l hl => absurd hl (by simp))
  show scanBr 0 ((renderFinal esc opts (sizeD (.elem tg idA cls kids))
      (.elem tg idA cls kids) 0 [selectorFor esc opts.toSelOpts ⟨tg, idA, cls, hp, pv⟩]
      none ⟨0, false⟩).1
    ++ (if (renderFinal esc opts (sizeD (.elem tg idA cls kids))
      (.elem tg idA cls kids) 0 [selectorFor esc opts.toSelOpts ⟨tg, idA, cls, hp, pv⟩]
      none ⟨0, false⟩).2.truncated then truncMarker else "")).data = some 0
  rw [String.data_append, scanBr_append, hr 0]
  simp only [Option.some_bind]
  split
  · exact scanBr_braceFree _ (by decide) 0
  · rfl

/-- Witness for the amended C10 at a concrete one-element, one-text
tree under the fallback escaper and default options. -/
theorem c10_brace_balance_witness :
    balancedBraces (cssMain cssEscapeFallback defaultCssOpts
        (some (.elem "DIV" "" [] [.text "hi"])) false 0).1 :=
  c10_brace_balance cssEscapeFallback defaultCssOpts "DIV" "" [] [.text "hi"] false 0
    braceFree_cssEscapeFallback (by decide)
    (BraceFreeTree.elem "DIV" "" [] [.text "hi"] (by decide)
      (by
        intro c hc
        have hc' : c = DNode.text "hi" := by simpa using hc
        rw [hc']
        exact BraceFreeTree.text "hi" (by decide)))
